import Mathlib

/-!
Verification of the Mytherra validation/chainstate specification against the
repository sources.

The unit-conversion layer (`src/qt/mytherraunits.cpp` and its header) is
embedded directly from the source: `QString`s are modelled as `List Char`,
`CAmount`/`qint64` as `Int` (all claims stay far inside the 64-bit range, so
overflow never matters), and the Qt library calls used by the source
(`QString::number`, `split`, `leftJustified`, `rightJustified`, `toLongLong`)
are given their documented meanings.

The consensus core (script verifier, UTXO set, block index, chainstate
manager) is not present in the sources; it is modelled from the
specification, with each such definition marked `Modelled from the spec:`.
-/

/- ————————————————————————————————————————————————————————————————————————
   Section 1: unit conversion (src/qt/mytherraunits.cpp)
   ———————————————————————————————————————————————————————————————————————— -/

/-- The `MytherraUnits::Unit` enum from `qt/mytherraunits.h`. -/
inductive MytherraUnit where
  | MYT
  | mMYT
  | uMYT
  | SAT
deriving DecidableEq

/-- The `MytherraUnits::SeparatorStyle` enum from `qt/mytherraunits.h`. -/
inductive SeparatorStyle where
  | NEVER
  | STANDARD
  | ALWAYS
deriving DecidableEq

/-- `static constexpr auto MAX_DIGITS_MYT = 16` from `qt/mytherraunits.cpp`. -/
def MAX_DIGITS_MYT : Nat := 16

/-- Modelled from the spec: `consensus/amount.h` is not among the sources; the
cap referenced by `MytherraUnits::maxMoney` is the standard 21 million coins of
`10^8` base units. -/
def MAX_MONEY : Int := 2100000000000000

/-- `MytherraUnits::factor` from `qt/mytherraunits.cpp`. -/
def MytherraUnits.factor : MytherraUnit → Int
  | .MYT => 100000000
  | .mMYT => 100000
  | .uMYT => 100
  | .SAT => 1

/-- `MytherraUnits::decimals` from `qt/mytherraunits.cpp`. -/
def MytherraUnits.decimals : MytherraUnit → Nat
  | .MYT => 8
  | .mMYT => 5
  | .uMYT => 2
  | .SAT => 0

/-- `MytherraUnits::maxMoney` from `qt/mytherraunits.cpp`. -/
def MytherraUnits.maxMoney : Int := MAX_MONEY

/-- U+2009 THIN SPACE (`THIN_SP_CP` in `qt/mytherraunits.h`). -/
def thinSpace : Char := Char.ofNat 0x2009

/-- The decimal digit character of value `d` (for `d < 10`). -/
def digitChar (d : Nat) : Char := Char.ofNat (48 + d)

/-- Fuel-driven helper for `QString::number` on a nonnegative `qint64`. -/
def natToStringAux : Nat → Nat → List Char
  | 0, _ => []
  | fuel + 1, n =>
    if n < 10 then [digitChar n]
    else natToStringAux fuel (n / 10) ++ [digitChar (n % 10)]

/-- `QString::number` on a nonnegative `qint64`: decimal digits, no sign. -/
def natToString (n : Nat) : List Char := natToStringAux (n + 1) n

/-- `QString::rightJustified(width, fill)`: pad on the left up to `width`
(no truncation, as in the source calls). -/
def rightJustified (s : List Char) (width : Nat) (fill : Char) : List Char :=
  List.replicate (width - s.length) fill ++ s

/-- `QString::leftJustified(width, fill)`: pad on the right up to `width`
(no truncation, as in the source calls). -/
def leftJustified (s : List Char) (width : Nat) (fill : Char) : List Char :=
  s ++ List.replicate (width - s.length) fill

/-- Helper for the thin-space insertion loop of `MytherraUnits::format`:
walks the reversed digit string and emits a thin space before every third
character counted from the right. -/
def insertSepsAux : List Char → Nat → List Char
  | [], _ => []
  | c :: rest, j =>
    if j ≠ 0 ∧ j % 3 = 0 then thinSpace :: c :: insertSepsAux rest (j + 1)
    else c :: insertSepsAux rest (j + 1)

/-- The loop `for (int i = 3; i < q_size; i += 3) quotient_str.insert(q_size - i, thin_sp)`
of `MytherraUnits::format`: a thin space lands exactly before each group of
three digits counted from the right end. -/
def insertThinSeps (s : List Char) : List Char := (insertSepsAux s.reverse 0).reverse

/-- `MytherraUnits::format` from `qt/mytherraunits.cpp`.  `nIn` is the
`CAmount` (`qint64`); the nonnegative intermediates `n_abs`, `quotient` and
`remainder` are modelled as `Nat`. -/
def MytherraUnits.format (unit : MytherraUnit) (nIn : Int) (fPlus : Bool)
    (separators : SeparatorStyle) (justify : Bool) : List Char :=
  let coin : Nat := (factor unit).toNat
  let num_decimals := decimals unit
  let n_abs : Nat := nIn.natAbs
  let quotient := n_abs / coin
  let quotient_str := natToString quotient
  let quotient_str :=
    if justify then rightJustified quotient_str (MAX_DIGITS_MYT - num_decimals) ' '
    else quotient_str
  let q_size := quotient_str.length
  let quotient_str :=
    if separators = SeparatorStyle.ALWAYS ∨
        (separators = SeparatorStyle.STANDARD ∧ q_size > 4)
    then insertThinSeps quotient_str else quotient_str
  let quotient_str :=
    if nIn < 0 then '-' :: quotient_str
    else if fPlus ∧ nIn > 0 then '+' :: quotient_str
    else quotient_str
  if num_decimals > 0 then
    let remainder := n_abs % coin
    quotient_str ++ '.' :: rightJustified (natToString remainder) num_decimals '0'
  else quotient_str

/-- `MytherraUnits::removeSpaces` from `qt/mytherraunits.h`:
`text.remove(' ')` then `text.remove(QChar(THIN_SP_CP))`. -/
def MytherraUnits.removeSpaces (text : List Char) : List Char :=
  (text.filter (fun c => c ≠ ' ')).filter (fun c => c ≠ thinSpace)

/-- `QString::split(".")` with the default `KeepEmptyParts`. -/
def splitOnDot : List Char → List (List Char)
  | [] => [[]]
  | c :: rest =>
    if c = '.' then [] :: splitOnDot rest
    else
      match splitOnDot rest with
      | [] => [[c]]
      | p :: ps => (c :: p) :: ps

/-- Value of a decimal digit character, `none` for anything else. -/
def digitVal (c : Char) : Option Nat :=
  if '0' ≤ c ∧ c ≤ '9' then some (c.toNat - 48) else none

/-- Accumulating base-10 evaluation of a digit string; fails at the first
non-digit character. -/
def parseNatAux : List Char → Nat → Option Nat
  | [], acc => some acc
  | c :: rest, acc =>
    match digitVal c with
    | some d => parseNatAux rest (acc * 10 + d)
    | none => none

/-- A nonempty all-digit string evaluated in base 10. -/
def parseNatDigits : List Char → Option Nat
  | [] => none
  | s => parseNatAux s 0

/-- `QString::toLongLong` (base 10, C locale): optional sign, then decimal
digits, `none` on any other character, an empty digit part, or a value
outside the `qint64` range.  The 64-bit bounds are written as literals. -/
def toLongLong (s : List Char) : Option Int :=
  match s with
  | [] => none
  | c :: rest =>
    if c = '-' then
      (parseNatDigits rest).bind fun v =>
        if (v : Int) ≤ 9223372036854775808 then some (-(v : Int)) else none
    else if c = '+' then
      (parseNatDigits rest).bind fun v =>
        if (v : Int) ≤ 9223372036854775807 then some ((v : Int)) else none
    else
      (parseNatDigits s).bind fun v =>
        if (v : Int) ≤ 9223372036854775807 then some ((v : Int)) else none

/-- The `parts` list computed by `MytherraUnits::parse`. -/
def MytherraUnits.parseParts (value : List Char) : List (List Char) :=
  splitOnDot (removeSpaces value)

/-- The fractional-digit string (`decimals` local) of `MytherraUnits::parse`. -/
def MytherraUnits.fracDigits (value : List Char) : List Char :=
  let parts := parseParts value
  if parts.length > 1 then parts.getD 1 [] else []

/-- The concatenated string `whole + decimals.leftJustified(num_decimals, '0')`
of `MytherraUnits::parse`. -/
def MytherraUnits.concatDigits (unit : MytherraUnit) (value : List Char) : List Char :=
  (parseParts value).headD [] ++ leftJustified (fracDigits value) (decimals unit) '0'

/-- `MytherraUnits::parse` from `qt/mytherraunits.cpp`.  `some v` models
returning `true` with `*val_out = v`; `none` models returning `false`. -/
def MytherraUnits.parse (unit : MytherraUnit) (value : List Char) : Option Int :=
  if value = [] then none
  else
    let parts := parseParts value
    if parts.length > 2 then none
    else
      let decs := fracDigits value
      if decs.length > decimals unit then none
      else
        let str := concatDigits unit value
        if str.length > 18 then none
        else toLongLong str

/-- `ToQint8` from the anonymous namespace of `qt/mytherraunits.cpp`. -/
def ToQint8 : MytherraUnit → Int
  | .MYT => 0
  | .mMYT => 1
  | .uMYT => 2
  | .SAT => 3

/-- `FromQint8` from the anonymous namespace of `qt/mytherraunits.cpp`;
`assert(false)` on an out-of-range byte is modelled as `none`. -/
def FromQint8 (num : Int) : Option MytherraUnit :=
  if num = 0 then some .MYT
  else if num = 1 then some .mMYT
  else if num = 2 then some .uMYT
  else if num = 3 then some .SAT
  else none

/-- `operator<<(QDataStream&, const MytherraUnit&)`: appends the one-byte
serialization of the unit to the stream. -/
def writeUnit (out : List Int) (unit : MytherraUnit) : List Int :=
  out ++ [ToQint8 unit]

/-- `operator>>(QDataStream&, MytherraUnit&)`: reads one byte from the front
of the stream and decodes it with `FromQint8`. -/
def readUnit (stream : List Int) : Option (MytherraUnit × List Int) :=
  match stream with
  | [] => none
  | b :: rest => (FromQint8 b).map (fun u => (u, rest))

/- ————————————————————————————————————————————————————————————————————————
   Section 2: arithmetic facts about digit strings
   ———————————————————————————————————————————————————————————————————————— -/

/-- A digit character evaluates to its value and is none of the characters
`format`/`parse` treat specially. -/
theorem digitChar_spec (k : Nat) (hk : k < 10) :
    digitVal (digitChar k) = some k ∧ digitChar k ≠ ' ' ∧ digitChar k ≠ thinSpace ∧
      digitChar k ≠ '.' ∧ digitChar k ≠ '-' ∧ digitChar k ≠ '+' := by
  interval_cases k <;> exact ⟨by decide, by decide, by decide, by decide, by decide, by decide⟩

theorem natToStringAux_ne_nil (fuel n : Nat) (h : 0 < fuel) :
    natToStringAux fuel n ≠ [] := by
  cases fuel with
  | zero => omega
  | succ f =>
    simp only [natToStringAux]
    split
    · simp
    · simp

theorem natToStringAux_digits (fuel : Nat) :
    ∀ n c, c ∈ natToStringAux fuel n → ∃ k, k < 10 ∧ c = digitChar k := by
  induction fuel with
  | zero => intro n c hc; simp [natToStringAux] at hc
  | succ f ih =>
    intro n c hc
    simp only [natToStringAux] at hc
    split at hc
    · rename_i h10
      simp at hc
      exact ⟨n, h10, hc⟩
    · rename_i h10
      rcases List.mem_append.mp hc with h | h
      · exact ih _ _ h
      · simp at h
        exact ⟨n % 10, Nat.mod_lt _ (by omega), h⟩

theorem parseNatAux_append (s t : List Char) (a : Nat) :
    parseNatAux (s ++ t) a = (parseNatAux s a).bind (fun v => parseNatAux t v) := by
  induction s generalizing a with
  | nil => simp [parseNatAux]
  | cons c rest ih =>
    simp only [List.cons_append, parseNatAux]
    cases digitVal c with
    | none => simp
    | some d => simp [ih]

theorem parseNatAux_natToStringAux (fuel : Nat) :
    ∀ n a, n < fuel →
      parseNatAux (natToStringAux fuel n) a =
        some (a * 10 ^ (natToStringAux fuel n).length + n) := by
  induction fuel with
  | zero => intro n a h; omega
  | succ f ih =>
    intro n a h
    simp only [natToStringAux]
    split
    · rename_i h10
      simp [parseNatAux, (digitChar_spec n h10).1]
    · rename_i h10
      have hrec : n / 10 < f := by omega
      rw [parseNatAux_append, ih _ a hrec]
      have hm : n % 10 < 10 := Nat.mod_lt _ (by omega)
      simp only [Option.some_bind, parseNatAux, (digitChar_spec _ hm).1,
        List.length_append, List.length_cons, List.length_nil, Nat.zero_add]
      congr 1
      have key : ∀ P : Nat, (P + n / 10) * 10 + n % 10 = P * 10 + n := by
        intro P
        have hdm := Nat.div_add_mod n 10
        omega
      calc (a * 10 ^ (natToStringAux f (n / 10)).length + n / 10) * 10 + n % 10
          = (a * 10 ^ (natToStringAux f (n / 10)).length) * 10 + n := key _
        _ = a * 10 ^ ((natToStringAux f (n / 10)).length + 1) + n := by
            rw [pow_succ]; ring

theorem natToStringAux_length_le (fuel : Nat) :
    ∀ n k, n < fuel → n < 10 ^ k → 1 ≤ k → (natToStringAux fuel n).length ≤ k := by
  induction fuel with
  | zero => intro n k h; omega
  | succ f ih =>
    intro n k h hk h1
    simp only [natToStringAux]
    split
    · simpa using h1
    · rename_i h10
      have hk2 : 2 ≤ k := by
        by_contra hlt
        have : k = 1 := by omega
        subst this
        simp at hk
        omega
      have hdiv : n / 10 < 10 ^ (k - 1) := by
        have : 10 ^ k = 10 ^ (k - 1) * 10 := by
          rw [← pow_succ]
          congr 1
          omega
        rw [Nat.div_lt_iff_lt_mul (by omega)]
        omega
      have := ih (n / 10) (k - 1) (by omega) hdiv (by omega)
      simp only [List.length_append, List.length_cons, List.length_nil]
      omega

theorem parseNatAux_replicate (k a : Nat) :
    parseNatAux (List.replicate k '0') a = some (a * 10 ^ k) := by
  induction k generalizing a with
  | zero => simp [parseNatAux]
  | succ j ih =>
    simp only [List.replicate_succ, parseNatAux]
    have h0 : digitVal '0' = some 0 := by decide
    rw [h0]
    simp only [ih]
    congr 1
    ring

theorem natToString_ne_nil (n : Nat) : natToString n ≠ [] :=
  natToStringAux_ne_nil _ _ (by omega)

theorem natToString_digits (n : Nat) :
    ∀ c ∈ natToString n, ∃ k, k < 10 ∧ c = digitChar k :=
  fun _ hc => natToStringAux_digits _ _ _ hc

theorem parseNatAux_natToString (n a : Nat) :
    parseNatAux (natToString n) a = some (a * 10 ^ (natToString n).length + n) :=
  parseNatAux_natToStringAux _ _ _ (by omega)

theorem natToString_length_le (n k : Nat) (hk : n < 10 ^ k) (h1 : 1 ≤ k) :
    (natToString n).length ≤ k :=
  natToStringAux_length_le _ _ _ (by omega) hk h1

/- ————————————————————————————————————————————————————————————————————————
   Section 3: space removal and dot splitting
   ———————————————————————————————————————————————————————————————————————— -/

theorem removeSpaces_nil : MytherraUnits.removeSpaces [] = [] := rfl

theorem removeSpaces_cons (c : Char) (l : List Char) :
    MytherraUnits.removeSpaces (c :: l) =
      if c = ' ' ∨ c = thinSpace then MytherraUnits.removeSpaces l
      else c :: MytherraUnits.removeSpaces l := by
  by_cases h1 : c = ' '
  · subst h1
    simp [MytherraUnits.removeSpaces, List.filter_cons]
  · by_cases h2 : c = thinSpace
    · subst h2
      have hne : thinSpace ≠ ' ' := by decide
      simp [MytherraUnits.removeSpaces, List.filter_cons, hne]
    · simp [MytherraUnits.removeSpaces, List.filter_cons, h1, h2]

theorem removeSpaces_append (a b : List Char) :
    MytherraUnits.removeSpaces (a ++ b) =
      MytherraUnits.removeSpaces a ++ MytherraUnits.removeSpaces b := by
  simp [MytherraUnits.removeSpaces, List.filter_append]

theorem removeSpaces_of_keep (l : List Char)
    (h : ∀ c ∈ l, c ≠ ' ' ∧ c ≠ thinSpace) :
    MytherraUnits.removeSpaces l = l := by
  induction l with
  | nil => rfl
  | cons c rest ih =>
    rw [removeSpaces_cons]
    have hc := h c (by simp)
    rw [if_neg (by tauto)]
    rw [ih (fun x hx => h x (by simp [hx]))]

theorem removeSpaces_insertSepsAux (l : List Char) :
    ∀ j, MytherraUnits.removeSpaces (insertSepsAux l j) =
      MytherraUnits.removeSpaces l := by
  induction l with
  | nil => intro j; rfl
  | cons c rest ih =>
    intro j
    simp only [insertSepsAux]
    split
    · rw [removeSpaces_cons thinSpace, if_pos (by right; rfl),
        removeSpaces_cons, removeSpaces_cons, ih]
    · rw [removeSpaces_cons, removeSpaces_cons, ih]

theorem removeSpaces_reverse (l : List Char) :
    MytherraUnits.removeSpaces l.reverse = (MytherraUnits.removeSpaces l).reverse := by
  simp [MytherraUnits.removeSpaces, List.filter_reverse]

theorem removeSpaces_insertThinSeps (s : List Char) :
    MytherraUnits.removeSpaces (insertThinSeps s) = MytherraUnits.removeSpaces s := by
  rw [insertThinSeps, removeSpaces_reverse, removeSpaces_insertSepsAux,
    removeSpaces_reverse, List.reverse_reverse]

theorem splitOnDot_ne_nil (l : List Char) : splitOnDot l ≠ [] := by
  cases l with
  | nil => simp [splitOnDot]
  | cons c rest =>
    simp only [splitOnDot]
    split
    · simp
    · split
      · simp
      · simp

theorem splitOnDot_no_dot (l : List Char) (h : ∀ c ∈ l, c ≠ '.') :
    splitOnDot l = [l] := by
  induction l with
  | nil => rfl
  | cons c rest ih =>
    simp only [splitOnDot]
    rw [if_neg (h c (by simp))]
    rw [ih (fun x hx => h x (by simp [hx]))]

theorem splitOnDot_append_dot (a b : List Char) (h : ∀ c ∈ a, c ≠ '.') :
    splitOnDot (a ++ '.' :: b) = a :: splitOnDot b := by
  induction a with
  | nil => simp [splitOnDot]
  | cons c rest ih =>
    simp only [List.cons_append, splitOnDot]
    rw [if_neg (h c (by simp))]
    have hr : splitOnDot (rest ++ '.' :: b) = rest :: splitOnDot b :=
      ih (fun x hx => h x (by simp [hx]))
    rw [show (rest.append ('.' :: b)) = rest ++ '.' :: b from rfl, hr]

/- ————————————————————————————————————————————————————————————————————————
   Section 4: structure of the formatted string
   ———————————————————————————————————————————————————————————————————————— -/

theorem factor_toNat (u : MytherraUnit) :
    (MytherraUnits.factor u).toNat = 10 ^ MytherraUnits.decimals u := by
  cases u <;> rfl

theorem decimals_le_eight (u : MytherraUnit) : MytherraUnits.decimals u ≤ 8 := by
  cases u <;> simp [MytherraUnits.decimals]

theorem natToString_char_props (n : Nat) :
    ∀ c ∈ natToString n, c ≠ ' ' ∧ c ≠ thinSpace ∧ c ≠ '.' ∧ c ≠ '-' ∧ c ≠ '+' := by
  intro c hc
  obtain ⟨k, hk, rfl⟩ := natToString_digits n c hc
  have h := digitChar_spec k hk
  exact ⟨h.2.1, h.2.2.1, h.2.2.2.1, h.2.2.2.2.1, h.2.2.2.2.2⟩

theorem rightJustified_zero_char_props (r d : Nat) :
    ∀ c ∈ rightJustified (natToString r) d '0', c ≠ ' ' ∧ c ≠ thinSpace ∧ c ≠ '.' := by
  intro c hc
  rw [rightJustified] at hc
  rcases List.mem_append.mp hc with h | h
  · have : c = '0' := List.eq_of_mem_replicate h
    subst this
    exact ⟨by decide, by decide, by decide⟩
  · have h2 := natToString_char_props r c h
    exact ⟨h2.1, h2.2.1, h2.2.2.1⟩

theorem removeSpaces_ite_seps (p : Prop) [Decidable p] (s : List Char)
    (h : ∀ c ∈ s, c ≠ ' ' ∧ c ≠ thinSpace) :
    MytherraUnits.removeSpaces (if p then insertThinSeps s else s) = s := by
  split
  · rw [removeSpaces_insertThinSeps, removeSpaces_of_keep s h]
  · exact removeSpaces_of_keep s h

theorem sign_split (p : Prop) [Decidable p] (X : List Char) :
    (if p then '-' :: X else X) = (if p then ['-'] else []) ++ X := by
  split <;> simp

theorem removeSpaces_sign (p : Prop) [Decidable p] :
    MytherraUnits.removeSpaces (if p then ['-'] else []) = (if p then ['-'] else []) := by
  split
  · exact removeSpaces_of_keep _ (by
      intro c hc
      simp at hc
      subst hc
      exact ⟨by decide, by decide⟩)
  · rfl

theorem format_structure (u : MytherraUnit) (n : Int) :
    MytherraUnits.removeSpaces (MytherraUnits.format u n false SeparatorStyle.STANDARD false) =
      (if n < 0 then ['-'] else []) ++
        natToString (n.natAbs / 10 ^ MytherraUnits.decimals u) ++
        (if 0 < MytherraUnits.decimals u then
          '.' :: rightJustified (natToString (n.natAbs % 10 ^ MytherraUnits.decimals u))
            (MytherraUnits.decimals u) '0'
        else []) := by
  have hq := natToString_char_props (n.natAbs / 10 ^ MytherraUnits.decimals u)
  have hqk : ∀ c ∈ natToString (n.natAbs / 10 ^ MytherraUnits.decimals u),
      c ≠ ' ' ∧ c ≠ thinSpace := fun c hc => ⟨(hq c hc).1, (hq c hc).2.1⟩
  have hrk : ∀ c ∈ '.' :: rightJustified (natToString (n.natAbs % 10 ^ MytherraUnits.decimals u))
      (MytherraUnits.decimals u) '0', c ≠ ' ' ∧ c ≠ thinSpace := by
    intro c hc
    rcases List.mem_cons.mp hc with rfl | hc2
    · exact ⟨by decide, by decide⟩
    · have h3 := rightJustified_zero_char_props _ _ c hc2
      exact ⟨h3.1, h3.2.1⟩
  simp only [MytherraUnits.format, factor_toNat, Bool.false_eq_true, false_and, false_or,
    true_and, if_false]
  by_cases hd : MytherraUnits.decimals u > 0
  · rw [if_pos hd, if_pos hd, sign_split, removeSpaces_append, removeSpaces_append,
      removeSpaces_sign, removeSpaces_ite_seps _ _ hqk, removeSpaces_of_keep _ hrk,
      List.append_assoc]
  · rw [if_neg hd, if_neg hd, sign_split, removeSpaces_append,
      removeSpaces_sign, removeSpaces_ite_seps _ _ hqk, List.append_nil]

theorem rightJustified_natToString_length (r d : Nat) (h : (natToString r).length ≤ d) :
    (rightJustified (natToString r) d '0').length = d := by
  simp only [rightJustified, List.length_append, List.length_replicate]
  omega

theorem rightJustified_zero_char_props2 (r d : Nat) :
    ∀ c ∈ rightJustified (natToString r) d '0',
      c ≠ ' ' ∧ c ≠ thinSpace ∧ c ≠ '.' ∧ c ≠ '-' ∧ c ≠ '+' := by
  intro c hc
  rw [rightJustified] at hc
  rcases List.mem_append.mp hc with h | h
  · have : c = '0' := List.eq_of_mem_replicate h
    subst this
    exact ⟨by decide, by decide, by decide, by decide, by decide⟩
  · exact natToString_char_props r c h

theorem quotient_lt (m d : Nat) (hm : m ≤ 2100000000000000) :
    m / 10 ^ d < 10 ^ (16 - d) := by
  by_cases hd : d ≤ 16
  · have hpos : 0 < (10:Nat) ^ d := pow_pos (by norm_num) d
    rw [Nat.div_lt_iff_lt_mul hpos]
    have hmul : 10 ^ (16 - d) * 10 ^ d = 10 ^ 16 := by
      rw [← pow_add]
      congr 1
      omega
    rw [hmul]
    have h16 : (10:Nat) ^ 16 = 10000000000000000 := by norm_num
    omega
  · have hz : m / 10 ^ d = 0 := by
      apply Nat.div_eq_of_lt
      calc m ≤ 2100000000000000 := hm
        _ < 10 ^ 17 := by norm_num
        _ ≤ 10 ^ d := Nat.pow_le_pow_right (by norm_num) (by omega)
    rw [hz]
    exact pow_pos (by norm_num) _

theorem parseNatAux_qr (q r d : Nat) (hr : (natToString r).length ≤ d) :
    parseNatAux (natToString q ++ rightJustified (natToString r) d '0') 0 =
      some (q * 10 ^ d + r) := by
  rw [parseNatAux_append, parseNatAux_natToString]
  simp only [Nat.zero_mul, Nat.zero_add, Option.some_bind]
  rw [rightJustified, parseNatAux_append, parseNatAux_replicate]
  simp only [Option.some_bind]
  rw [parseNatAux_natToString]
  congr 1
  have hpow : q * 10 ^ (d - (natToString r).length) * 10 ^ (natToString r).length =
      q * 10 ^ d := by
    rw [Nat.mul_assoc, ← pow_add]
    congr 2
    omega
  rw [hpow]

theorem parseNatDigits_of_ne_nil (l : List Char) (h : l ≠ []) :
    parseNatDigits l = parseNatAux l 0 := by
  cases l with
  | nil => exact absurd rfl h
  | cons c t => rfl

theorem toLongLong_signed (n : Int) (core : List Char) (m : Nat)
    (hcore_ne : core ≠ [])
    (hcore_head : ∀ c ∈ core, c ≠ '-' ∧ c ≠ '+')
    (hval : parseNatAux core 0 = some m)
    (hm : m ≤ 2100000000000000)
    (habs : n.natAbs = m) :
    toLongLong ((if n < 0 then ['-'] else []) ++ core) = some n := by
  have hmle : (m : Int) ≤ 9223372036854775807 := by omega
  by_cases hneg : n < 0
  · rw [if_pos hneg]
    show toLongLong ('-' :: core) = some n
    simp only [toLongLong]
    rw [if_pos trivial, parseNatDigits_of_ne_nil core hcore_ne, hval]
    simp only [Option.some_bind]
    rw [if_pos (by omega)]
    have hcast : ((n.natAbs : Int)) = -n := Int.ofNat_natAbs_of_nonpos (by omega)
    rw [habs] at hcast
    congr 1
    omega
  · rw [if_neg hneg, List.nil_append]
    obtain ⟨c0, t0, rfl⟩ := List.exists_cons_of_ne_nil hcore_ne
    have hc0 := hcore_head c0 (by simp)
    simp only [toLongLong]
    rw [if_neg hc0.1, if_neg hc0.2, parseNatDigits_of_ne_nil _ (by simp), hval]
    simp only [Option.some_bind]
    rw [if_pos hmle]
    have hcast : ((n.natAbs : Int)) = n := Int.natAbs_of_nonneg (by omega)
    rw [habs] at hcast
    rw [hcast]

/-- C8: for every unit and every amount within MAX_MONEY, formatting with no
plus sign and STANDARD separators and then parsing returns true and recovers
exactly the original amount. -/
theorem units_format_parse_roundtrip (u : MytherraUnit) (n : Int)
    (h : n.natAbs ≤ MAX_MONEY.toNat) :
    MytherraUnits.parse u (MytherraUnits.format u n false SeparatorStyle.STANDARD false) =
      some n := by
  have hm : n.natAbs ≤ 2100000000000000 := h
  have hd8 : MytherraUnits.decimals u ≤ 8 := decimals_le_eight u
  set value := MytherraUnits.format u n false SeparatorStyle.STANDARD false with hv_def
  set d := MytherraUnits.decimals u with hd_def
  set m := n.natAbs with hm_def
  set q := m / 10 ^ d with hq_def
  set r := m % 10 ^ d with hr_def
  set sgn := (if n < 0 then ['-'] else ([] : List Char)) with hsgn_def
  set qstr := natToString q with hqstr_def
  have hqlt : q < 10 ^ (16 - d) := quotient_lt m d hm
  have hq_len : qstr.length ≤ 16 - d :=
    natToString_length_le q (16 - d) hqlt (by omega)
  have hrlt : r < 10 ^ d := Nat.mod_lt _ (pow_pos (by norm_num) d)
  have hsgn_len : sgn.length ≤ 1 := by
    rw [hsgn_def]
    split <;> simp
  have hqstr_ne : qstr ≠ [] := natToString_ne_nil q
  have hqprops := natToString_char_props q
  have hqr : q * 10 ^ d + r = m := by
    have h1 := Nat.div_add_mod m (10 ^ d)
    calc q * 10 ^ d + r = 10 ^ d * (m / 10 ^ d) + m % 10 ^ d := by
          rw [hq_def, hr_def, Nat.mul_comm]
      _ = m := h1
  have hFS : MytherraUnits.removeSpaces value =
      sgn ++ qstr ++ (if 0 < d then
        '.' :: rightJustified (natToString r) d '0' else []) := format_structure u n
  have hne : value ≠ [] := by
    intro h0
    rw [h0, removeSpaces_nil] at hFS
    obtain ⟨h1, h2⟩ := List.append_eq_nil.mp hFS.symm
    exact hqstr_ne (List.append_eq_nil.mp h1).2
  have hAfree : ∀ c ∈ sgn ++ qstr, c ≠ '.' := by
    intro c hc
    rcases List.mem_append.mp hc with hc | hc
    · rw [hsgn_def] at hc
      split at hc
      · simp at hc
        subst hc
        decide
      · simp at hc
    · exact (hqprops c hc).2.2.1
  have hAsign : ∀ c ∈ qstr, c ≠ '-' ∧ c ≠ '+' := by
    intro c hc
    exact ⟨(hqprops c hc).2.2.2.1, (hqprops c hc).2.2.2.2⟩
  by_cases hd0 : 0 < d
  · set rpad := rightJustified (natToString r) d '0' with hrpad_def
    have hr_len : (natToString r).length ≤ d := natToString_length_le r d hrlt (by omega)
    have hrpad_len : rpad.length = d := rightJustified_natToString_length r d hr_len
    have hrpadfree : ∀ c ∈ rpad, c ≠ '.' :=
      fun c hc => (rightJustified_zero_char_props2 r d c hc).2.2.1
    have hparts : MytherraUnits.parseParts value = [sgn ++ qstr, rpad] := by
      rw [MytherraUnits.parseParts, hFS, if_pos hd0,
        splitOnDot_append_dot _ _ hAfree, splitOnDot_no_dot _ hrpadfree]
    have hfrac : MytherraUnits.fracDigits value = rpad := by
      rw [MytherraUnits.fracDigits, hparts]
      norm_num
    have hcat : MytherraUnits.concatDigits u value = (sgn ++ qstr) ++ rpad := by
      rw [MytherraUnits.concatDigits, hparts, hfrac]
      simp [leftJustified, hrpad_len]
    have hlen18 : ¬ ((MytherraUnits.concatDigits u value).length > 18) := by
      rw [hcat]
      simp only [List.length_append, hrpad_len]
      omega
    simp only [MytherraUnits.parse]
    rw [if_neg hne, hparts, hfrac, hcat]
    rw [if_neg (by simp)]
    rw [if_neg (by rw [hrpad_len, ← hd_def]; omega)]
    rw [if_neg (by rw [← hcat]; exact hlen18)]
    rw [List.append_assoc]
    rw [hsgn_def]
    apply toLongLong_signed n (qstr ++ rpad) m
    · intro hcontra
      exact hqstr_ne (List.append_eq_nil.mp hcontra).1
    · intro c hc
      rcases List.mem_append.mp hc with hc | hc
      · exact hAsign c hc
      · have h5 := rightJustified_zero_char_props2 r d c hc
        exact ⟨h5.2.2.2.1, h5.2.2.2.2⟩
    · rw [hqstr_def, hrpad_def, parseNatAux_qr q r d hr_len, hqr]
    · exact hm
    · rfl
  · have hd0' : d = 0 := by omega
    have hq_eq_m : q = m := by
      rw [hq_def, hd0']
      simp
    have hparts : MytherraUnits.parseParts value = [sgn ++ qstr] := by
      rw [MytherraUnits.parseParts, hFS, if_neg hd0, List.append_nil]
      exact splitOnDot_no_dot _ hAfree
    have hfrac : MytherraUnits.fracDigits value = [] := by
      rw [MytherraUnits.fracDigits, hparts]
      norm_num
    have hcat : MytherraUnits.concatDigits u value = sgn ++ qstr := by
      rw [MytherraUnits.concatDigits, hparts, hfrac]
      simp [leftJustified, ← hd_def, hd0']
    have hlen18 : ¬ ((MytherraUnits.concatDigits u value).length > 18) := by
      rw [hcat]
      simp only [List.length_append]
      omega
    simp only [MytherraUnits.parse]
    rw [if_neg hne, hparts, hfrac, hcat]
    rw [if_neg (by simp)]
    rw [if_neg (by simp [← hd_def])]
    rw [if_neg (by rw [← hcat]; exact hlen18)]
    rw [hsgn_def]
    apply toLongLong_signed n qstr m
    · exact hqstr_ne
    · exact hAsign
    · rw [hqstr_def, parseNatAux_natToString]
      rw [hq_eq_m]
      simp
    · exact hm
    · rfl

/-- Witness for the format/parse round trip at unit MYT and amount 123456789. -/
theorem units_format_parse_roundtrip_witness :
    (123456789 : Int).natAbs ≤ MAX_MONEY.toNat ∧
      MytherraUnits.parse MytherraUnit.MYT
        (MytherraUnits.format MytherraUnit.MYT 123456789 false SeparatorStyle.STANDARD false) =
        some 123456789 :=
  ⟨by decide, units_format_parse_roundtrip MytherraUnit.MYT 123456789 (by decide)⟩

/-- C9 counterexample: `MytherraUnits::parse` tests emptiness before stripping
spaces, so an all-space input — empty after space removal — is accepted (as
zero) for any unit with a positive number of decimals, rather than refused. -/
theorem parse_space_only_accepted :
    MytherraUnits.removeSpaces [' '] = [] ∧
      MytherraUnits.parse MytherraUnit.MYT [' '] = some 0 := ⟨by decide, by decide⟩

/-- C9 (amended): parse returns false whenever the raw input string is empty,
or the space-stripped input splits into more than two dot-separated parts, or
the fractional part has more digits than `decimals(unit)`, or the concatenated
whole-plus-zero-padded-fraction string is longer than 18 characters. -/
theorem parse_rejects_malformed (unit : MytherraUnit) (value : List Char)
    (h : value = []
      ∨ (MytherraUnits.parseParts value).length > 2
      ∨ (MytherraUnits.fracDigits value).length > MytherraUnits.decimals unit
      ∨ (MytherraUnits.concatDigits unit value).length > 18) :
    MytherraUnits.parse unit value = none := by
  by_cases h0 : value = []
  · simp [MytherraUnits.parse, h0]
  · simp only [MytherraUnits.parse, if_neg h0]
    rcases h with h | h | h | h
    · exact absurd h h0
    · rw [if_pos h]
    · by_cases h2 : (MytherraUnits.parseParts value).length > 2
      · rw [if_pos h2]
      · rw [if_neg h2, if_pos h]
    · by_cases h2 : (MytherraUnits.parseParts value).length > 2
      · rw [if_pos h2]
      · rw [if_neg h2]
        by_cases h3 : (MytherraUnits.fracDigits value).length > MytherraUnits.decimals unit
        · rw [if_pos h3]
        · rw [if_neg h3, if_pos h]

/-- Witness for the rejection theorem on an input with two dots. -/
theorem parse_rejects_malformed_witness :
    (MytherraUnits.parseParts ['1', '.', '2', '.', '3']).length > 2 ∧
      MytherraUnits.parse MytherraUnit.MYT ['1', '.', '2', '.', '3'] = none :=
  ⟨by decide, parse_rejects_malformed MytherraUnit.MYT ['1', '.', '2', '.', '3']
    (by decide)⟩

/-- C10: the one-byte serialization of a unit decodes back to the same unit
(`FromQint8` inverts `ToQint8`), so a stream write with `operator<<` followed
by a read with `operator>>` restores the original unit and consumes exactly
one byte. -/
theorem unit_serialization_roundtrip :
    ∀ u : MytherraUnit, FromQint8 (ToQint8 u) = some u ∧
      ∀ rest : List Int, readUnit (writeUnit [] u ++ rest) = some (u, rest) := by
  intro u
  refine ⟨?_, ?_⟩
  · cases u <;> decide
  · intro rest
    cases u <;> rfl

/- ————————————————————————————————————————————————————————————————————————
   Section 5: script verifier (modelled from the spec, §4.1/§9)
   ———————————————————————————————————————————————————————————————————————— -/

/-- Modelled from the spec (§7): the rejection taxonomy of the validation
engine; `src/` holds no validation code, only the specification describes it. -/
inductive RejectReason where
  | Malformed
  | ConsensusViolation
  | ResourceExhausted
  | IoError
  | InternalInvariant
deriving DecidableEq

/-- Modelled from the spec (§4.1): script-evaluation error reasons. -/
inductive ScriptError where
  | evalFalse
  | invalidStackOperation
  | verifyFailed
  | opCountExceeded
deriving DecidableEq

/-- Modelled from the spec (§4.1): rule flags, each independently enabling a
historical tightening of the rules. -/
inductive ScriptFlag where
  | strictEncoding
  | sigHashV2
  | resourceLimit
deriving DecidableEq

/-- Modelled from the spec (§9): the closed tagged-variant instruction set of
the script machine, interpreted over an explicit stack of byte strings. -/
inductive ScriptOp where
  | push (bs : List Nat)
  | dup
  | equalVerify
  | checkSig
deriving DecidableEq

/-- A script is a sequence of instructions from the closed instruction set. -/
abbrev Script := List ScriptOp

/-- Modelled from the spec (§3): an output reference — (transaction
identifier, output index) — the UTXO-set key. -/
abbrev OutputRef := Nat × Nat

/-- Modelled from the spec (§3): a coin — value, locking condition, creation
height, and the reward-origin flag. -/
structure Coin where
  value : Nat
  lockingCondition : Script
  height : Nat
  isReward : Bool
deriving DecidableEq

/-- Modelled from the spec (§3): a transaction input — the reference it spends
plus its unlocking proof. -/
structure TxIn where
  prevout : OutputRef
  unlockingProof : Script
deriving DecidableEq

/-- Modelled from the spec (§3): a transaction output — value plus locking
condition. -/
structure TxOut where
  value : Nat
  lockingCondition : Script
deriving DecidableEq

/-- Modelled from the spec (§3): a transaction with its content-derived
identifier, ordered inputs and ordered outputs. -/
structure Transaction where
  txid : Nat
  inputs : List TxIn
  outputs : List TxOut
deriving DecidableEq

/-- Modelled from the spec (§3): a block as its ordered transaction sequence;
the first transaction is the reward transaction. -/
structure Block where
  txs : List Transaction
deriving DecidableEq

/-- Byte-string to boolean coercion of the stack machine (§9): anything with a
nonzero byte is true. -/
def truthy (v : List Nat) : Bool := v.any (fun b => b ≠ 0)

/-- Modelled from the spec: signature validity abstracted as a deterministic
predicate of signature, key and the spending context (the spec reuses the
opcode machine as a black box). -/
def sigValid (txid inputIndex spentValue : Nat) (sig pk : List Nat) : Bool :=
  sig = pk ++ [txid % 256, inputIndex % 256, spentValue % 256]

/-- One step of the script interpreter on the explicit stack. -/
def execOp (txid inputIndex spentValue : Nat) (stack : List (List Nat)) :
    ScriptOp → Except ScriptError (List (List Nat))
  | .push bs => .ok (bs :: stack)
  | .dup =>
    match stack with
    | [] => .error .invalidStackOperation
    | v :: rest => .ok (v :: v :: rest)
  | .equalVerify =>
    match stack with
    | a :: b :: rest => if a = b then .ok rest else .error .verifyFailed
    | _ => .error .invalidStackOperation
  | .checkSig =>
    match stack with
    | sig :: pk :: rest =>
        .ok ((if sigValid txid inputIndex spentValue sig pk then [1] else []) :: rest)
    | _ => .error .invalidStackOperation

/-- The interpreter loop; the `resourceLimit` flag enforces an operation-count
bound (§4.1: a resource-limit check behind a flag). -/
def execScript (txid inputIndex spentValue : Nat) (flags : List ScriptFlag) :
    Script → List (List Nat) → Nat → Except ScriptError (List (List Nat) × Nat)
  | [], stack, opCount => .ok (stack, opCount)
  | op :: rest, stack, opCount =>
    if flags.contains .resourceLimit ∧ opCount ≥ 201 then .error .opCountExceeded
    else
      match execOp txid inputIndex spentValue stack op with
      | .error e => .error e
      | .ok stack2 => execScript txid inputIndex spentValue flags rest stack2 (opCount + 1)

/-- Modelled from the spec (§4.1): `verify(lockingCondition, unlockingProof,
spendingTransaction, inputIndex, flags, spentValue) -> Result<(), ScriptError>`
— run the unlocking proof on an empty stack, then the locking condition, and
require a true top element. -/
def verify (lockingCondition unlockingProof : Script) (spendingTransaction : Transaction)
    (inputIndex : Nat) (flags : List ScriptFlag) (spentValue : Nat) :
    Except ScriptError Unit :=
  match execScript spendingTransaction.txid inputIndex spentValue flags unlockingProof [] 0 with
  | .error e => .error e
  | .ok (stack, cnt) =>
    match execScript spendingTransaction.txid inputIndex spentValue flags
        lockingCondition stack cnt with
    | .error e => .error e
    | .ok (stack2, _) =>
      match stack2 with
      | [] => .error .evalFalse
      | top :: _ => if truthy top then .ok () else .error .evalFalse

/-- Modelled from the spec (§4.1): an invocation of the verifier against
ambient shared state of any type; the verifier is pure — it threads the state
through untouched. -/
def verifyInvoke {σ : Type} (lockingCondition unlockingProof : Script)
    (spendingTransaction : Transaction) (inputIndex : Nat) (flags : List ScriptFlag)
    (spentValue : Nat) (shared : σ) : Except ScriptError Unit × σ :=
  (verify lockingCondition unlockingProof spendingTransaction inputIndex flags spentValue,
    shared)

/-- A script-verification job for the per-block worker pool (§5). -/
structure VerifyJob where
  lockingCondition : Script
  unlockingProof : Script
  tx : Transaction
  inputIndex : Nat
  flags : List ScriptFlag
  spentValue : Nat
deriving DecidableEq

/-- The per-block aggregation over the pool's verification jobs: the block is
script-valid iff every job reports success (§5). -/
def aggregateVerify (jobs : List VerifyJob) : Bool :=
  jobs.all fun j =>
    match verify j.lockingCondition j.unlockingProof j.tx j.inputIndex j.flags j.spentValue with
    | .ok _ => true
    | .error _ => false

/- ————————————————————————————————————————————————————————————————————————
   Section 6: UTXO set and block connection (modelled from the spec, §4.4/§4.5)
   ———————————————————————————————————————————————————————————————————————— -/

/-- Modelled from the spec (§2.2): the logical UTXO mapping from output
reference to coin. -/
abbrev UtxoSet := OutputRef → Option Coin

/-- Pointwise update of the UTXO mapping. -/
def updS (S : UtxoSet) (ref : OutputRef) (v : Option Coin) : UtxoSet :=
  fun ref2 => if ref2 = ref then v else S ref2

/-- Modelled from the spec (glossary): the per-transaction undo record of
exactly which coins were deleted and which references were created. -/
structure TxUndo where
  spent : List (OutputRef × Coin)
  created : List OutputRef
deriving DecidableEq

/-- Modelled from the spec (glossary): the per-block undo log, one record per
transaction in block order. -/
structure BlockUndo where
  txs : List TxUndo
deriving DecidableEq

/-- Modelled from the spec (§4.4): spend the inputs of one transaction in
order, recording each deleted coin; a missing or already-spent reference is a
consensus violation. -/
def spendInputs (S : UtxoSet) :
    List TxIn → Except RejectReason (UtxoSet × List (OutputRef × Coin))
  | [] => .ok (S, [])
  | i :: rest =>
    match S i.prevout with
    | none => .error .ConsensusViolation
    | some c =>
      match spendInputs (updS S i.prevout none) rest with
      | .error e => .error e
      | .ok (S2, u) => .ok (S2, (i.prevout, c) :: u)

/-- Modelled from the spec (§4.2, §4.4): create a transaction's outputs as
fresh coins; overwriting an existing coin is the fatal `addCoin` consistency
error, reported as `InternalInvariant`. -/
def addOutputs (txid height : Nat) (isReward : Bool) :
    UtxoSet → List TxOut → Nat → Except RejectReason (UtxoSet × List OutputRef)
  | S, [], _ => .ok (S, [])
  | S, o :: rest, idx =>
    if (S (txid, idx)).isSome then .error .InternalInvariant
    else
      match addOutputs txid height isReward
          (updS S (txid, idx) (some ⟨o.value, o.lockingCondition, height, isReward⟩))
          rest (idx + 1) with
      | .error e => .error e
      | .ok (S2, rs) => .ok (S2, (txid, idx) :: rs)

/-- Script verification over a transaction's inputs paired with the coins they
spend, aggregated as in §5: every input must verify. -/
def verifyTxScripts (tx : Transaction) (flags : List ScriptFlag)
    (spentCoins : List Coin) : Bool :=
  ((tx.inputs.zip spentCoins).enum).all fun p =>
    match verify p.2.2.lockingCondition p.2.1.unlockingProof tx p.1 flags p.2.2.value with
    | .ok _ => true
    | .error _ => false

/-- Declared output value of a transaction. -/
def outSum (tx : Transaction) : Nat := (tx.outputs.map TxOut.value).sum

/-- Total value of the coins deleted by a transaction, as recorded in its undo
record. -/
def spentSum (u : TxUndo) : Nat := (u.spent.map (fun rc => rc.2.value)).sum

/-- Modelled from the spec (§4.4): connect one non-reward transaction — spend
its inputs, verify every input script, check value conservation (inputs at
least outputs), then create its outputs; returns the new state, the undo
record and the fee. -/
def connectTx (flags : List ScriptFlag) (height : Nat) (S : UtxoSet) (tx : Transaction) :
    Except RejectReason (UtxoSet × TxUndo × Nat) :=
  match spendInputs S tx.inputs with
  | .error e => .error e
  | .ok (S1, spent) =>
    if verifyTxScripts tx flags (spent.map Prod.snd) = false then .error .ConsensusViolation
    else
      let inSum := (spent.map (fun rc => rc.2.value)).sum
      if inSum < outSum tx then .error .ConsensusViolation
      else
        match addOutputs tx.txid height false S1 tx.outputs 0 with
        | .error e => .error e
        | .ok (S2, created) => .ok (S2, ⟨spent, created⟩, inSum - outSum tx)

/-- Modelled from the spec (§4.4): fold `connectTx` over the non-reward
transactions in block order, accumulating undo records and total fees. -/
def connectTxs (flags : List ScriptFlag) (height : Nat) :
    UtxoSet → List Transaction → Except RejectReason (UtxoSet × List TxUndo × Nat)
  | S, [] => .ok (S, [], 0)
  | S, tx :: rest =>
    match connectTx flags height S tx with
    | .error e => .error e
    | .ok (S1, u, fee) =>
      match connectTxs flags height S1 rest with
      | .error e => .error e
      | .ok (S2, us, fees) => .ok (S2, u :: us, fee + fees)

/-- All output references spent by a block's inputs, in block order. -/
def blockInputRefs (B : Block) : List OutputRef :=
  (B.txs.map (fun tx => tx.inputs.map TxIn.prevout)).flatten

/-- Modelled from the spec (§4.4, context-free tier): structural shape — the
block is nonempty and the reward transaction (modelled as the inputless
transaction) is first and only. -/
def structuralOk (B : Block) : Bool :=
  match B.txs with
  | [] => false
  | reward :: rest => reward.inputs.isEmpty && rest.all (fun tx => !tx.inputs.isEmpty)

/-- Modelled from the spec (§4.4): connect a block as one atomic logical
operation — context-free checks (structure with `Malformed`, internal
double-spend absence with `ConsensusViolation`), then the reward outputs, each
non-reward transaction in order, and finally the total-fee bound on the reward
transaction's output value. -/
def connectBlockCore (flags : List ScriptFlag) (subsidy height : Nat)
    (S : UtxoSet) (B : Block) : Except RejectReason (UtxoSet × BlockUndo) :=
  if structuralOk B = false then .error .Malformed
  else if ¬ (blockInputRefs B).Nodup then .error .ConsensusViolation
  else
    match B.txs with
    | [] => .error .Malformed
    | reward :: rest =>
      match addOutputs reward.txid height true S reward.outputs 0 with
      | .error e => .error e
      | .ok (S1, createdR) =>
        match connectTxs flags height S1 rest with
        | .error e => .error e
        | .ok (S2, us, fees) =>
          if outSum reward > subsidy + fees then .error .ConsensusViolation
          else .ok (S2, ⟨⟨[], createdR⟩ :: us⟩)

/-- Modelled from the spec (§4.4): the stateful face of block connection — on
success the new UTXO state, on any rejection the state exactly as it was
before the attempt (no partial application). -/
def connectBlock (flags : List ScriptFlag) (subsidy height : Nat)
    (S : UtxoSet) (B : Block) : Except RejectReason BlockUndo × UtxoSet :=
  match connectBlockCore flags subsidy height S B with
  | .error e => (.error e, S)
  | .ok (S2, u) => (.ok u, S2)

/-- Modelled from the spec (§4.5 step 4): undo one transaction — delete the
outputs it created, then resurrect the coins it spent, in reverse order. -/
def disconnectTx (S : UtxoSet) (u : TxUndo) : UtxoSet :=
  (u.spent.reverse).foldl (fun acc rc => updS acc rc.1 (some rc.2))
    ((u.created.reverse).foldl (fun acc ref => updS acc ref none) S)

/-- Modelled from the spec (§4.5 step 4): undo a connected block using its
undo log, in reverse transaction order. -/
def disconnectBlock (S : UtxoSet) (bu : BlockUndo) : UtxoSet :=
  (bu.txs.reverse).foldl disconnectTx S

theorem updS_restore (S : UtxoSet) (ref : OutputRef) (c : Coin) (h : S ref = some c) :
    updS (updS S ref none) ref (some c) = S := by
  funext ref2
  by_cases h2 : ref2 = ref
  · subst h2
    simp [updS, h]
  · simp [updS, h2]

theorem updS_remove (S : UtxoSet) (ref : OutputRef) (v : Option Coin) (h : S ref = none) :
    updS (updS S ref v) ref none = S := by
  funext ref2
  by_cases h2 : ref2 = ref
  · subst h2
    simp [updS, h]
  · simp [updS, h2]

theorem spendInputs_roundtrip (ins : List TxIn) :
    ∀ (S S2 : UtxoSet) (u : List (OutputRef × Coin)),
      spendInputs S ins = .ok (S2, u) →
      (u.reverse).foldl (fun acc rc => updS acc rc.1 (some rc.2)) S2 = S := by
  induction ins with
  | nil =>
    intro S S2 u h
    simp only [spendInputs, Except.ok.injEq, Prod.mk.injEq] at h
    rw [← h.2, ← h.1]
    simp
  | cons i rest ih =>
    intro S S2 u h
    cases hS : S i.prevout with
    | none => simp [spendInputs, hS] at h
    | some c =>
      cases hrec : spendInputs (updS S i.prevout none) rest with
      | error e => simp [spendInputs, hS, hrec] at h
      | ok p =>
        obtain ⟨S3, u3⟩ := p
        simp only [spendInputs, hS, hrec, Except.ok.injEq, Prod.mk.injEq] at h
        rw [← h.2, ← h.1, List.reverse_cons, List.foldl_append, ih _ _ _ hrec]
        simp only [List.foldl_cons, List.foldl_nil]
        exact updS_restore S i.prevout c hS

theorem addOutputs_roundtrip (txid height : Nat) (isReward : Bool) (outs : List TxOut) :
    ∀ (S S2 : UtxoSet) (idx : Nat) (created : List OutputRef),
      addOutputs txid height isReward S outs idx = .ok (S2, created) →
      (created.reverse).foldl (fun acc ref => updS acc ref none) S2 = S := by
  induction outs with
  | nil =>
    intro S S2 idx created h
    simp only [addOutputs, Except.ok.injEq, Prod.mk.injEq] at h
    rw [← h.2, ← h.1]
    simp
  | cons o rest ih =>
    intro S S2 idx created h
    by_cases hS : (S (txid, idx)).isSome = true
    · simp [addOutputs, hS] at h
    · cases hrec : addOutputs txid height isReward
          (updS S (txid, idx) (some ⟨o.value, o.lockingCondition, height, isReward⟩))
          rest (idx + 1) with
      | error e => simp [addOutputs, hS, hrec] at h
      | ok p =>
        obtain ⟨S3, rs⟩ := p
        simp only [addOutputs, hS, hrec, if_false, Bool.false_eq_true,
          Except.ok.injEq, Prod.mk.injEq] at h
        rw [← h.2, ← h.1, List.reverse_cons, List.foldl_append, ih _ _ _ _ hrec]
        simp only [List.foldl_cons, List.foldl_nil]
        exact updS_remove S (txid, idx) _ (Option.not_isSome_iff_eq_none.mp hS)

theorem connectTx_roundtrip (flags : List ScriptFlag) (height : Nat)
    (S S2 : UtxoSet) (tx : Transaction) (u : TxUndo) (fee : Nat)
    (h : connectTx flags height S tx = .ok (S2, u, fee)) :
    disconnectTx S2 u = S := by
  cases hsp : spendInputs S tx.inputs with
  | error e => simp [connectTx, hsp] at h
  | ok p =>
    obtain ⟨S1, spent⟩ := p
    by_cases hv : verifyTxScripts tx flags (spent.map Prod.snd) = false
    · simp [connectTx, hsp, hv] at h
    · by_cases hval : (spent.map (fun rc => rc.2.value)).sum < outSum tx
      · simp [connectTx, hsp, hv, hval] at h
      · cases hadd : addOutputs tx.txid height false S1 tx.outputs 0 with
        | error e => simp [connectTx, hsp, hv, hval, hadd] at h
        | ok q =>
          obtain ⟨S3, created⟩ := q
          have hok : connectTx flags height S tx =
              .ok (S3, ⟨spent, created⟩,
                (spent.map (fun rc => rc.2.value)).sum - outSum tx) := by
            simp [connectTx, hsp, hv, hval, hadd]
          rw [h] at hok
          injection hok with hok
          simp only [Prod.mk.injEq] at hok
          rw [hok.1, hok.2.1]
          unfold disconnectTx
          simp only
          rw [addOutputs_roundtrip _ _ _ _ _ _ _ _ hadd,
            spendInputs_roundtrip _ _ _ _ hsp]

theorem connectTxs_roundtrip (flags : List ScriptFlag) (height : Nat)
    (txs : List Transaction) :
    ∀ (S S2 : UtxoSet) (us : List TxUndo) (fees : Nat),
      connectTxs flags height S txs = .ok (S2, us, fees) →
      (us.reverse).foldl disconnectTx S2 = S := by
  induction txs with
  | nil =>
    intro S S2 us fees h
    simp only [connectTxs, Except.ok.injEq, Prod.mk.injEq] at h
    rw [← h.2.1, ← h.1]
    simp
  | cons tx rest ih =>
    intro S S2 us fees h
    cases hc : connectTx flags height S tx with
    | error e => simp [connectTxs, hc] at h
    | ok p =>
      obtain ⟨S1, u, fee⟩ := p
      cases hcs : connectTxs flags height S1 rest with
      | error e => simp [connectTxs, hc, hcs] at h
      | ok q =>
        obtain ⟨S3, us3, fees3⟩ := q
        simp only [connectTxs, hc, hcs, Except.ok.injEq, Prod.mk.injEq] at h
        rw [← h.2.1, ← h.1, List.reverse_cons, List.foldl_append, ih _ _ _ _ hcs]
        simp only [List.foldl_cons, List.foldl_nil]
        exact connectTx_roundtrip _ _ _ _ _ _ _ hc

/-- C1: a block accepted by `connectBlockCore` produces an undo log whose
`disconnectBlock` restores the UTXO set exactly as it was before the connect. -/
theorem connect_disconnect_roundtrip (flags : List ScriptFlag) (subsidy height : Nat)
    (S : UtxoSet) (B : Block) (res : UtxoSet × BlockUndo)
    (h : connectBlockCore flags subsidy height S B = .ok res) :
    disconnectBlock res.1 res.2 = S := by
  by_cases h1 : structuralOk B = false
  · simp [connectBlockCore, h1] at h
  · by_cases h2 : ¬ (blockInputRefs B).Nodup
    · simp [connectBlockCore, h1, h2] at h
    · cases hB : B.txs with
      | nil => simp [connectBlockCore, h1, h2, hB] at h
      | cons reward rest =>
        cases hadd : addOutputs reward.txid height true S reward.outputs 0 with
        | error e => simp [connectBlockCore, h1, h2, hB, hadd] at h
        | ok p =>
          obtain ⟨S1, createdR⟩ := p
          cases hcs : connectTxs flags height S1 rest with
          | error e => simp [connectBlockCore, h1, h2, hB, hadd, hcs] at h
          | ok q =>
            obtain ⟨S2, us, fees⟩ := q
            by_cases hfee : outSum reward > subsidy + fees
            · simp [connectBlockCore, h1, h2, hB, hadd, hcs, hfee] at h
            · have hok : connectBlockCore flags subsidy height S B =
                  .ok (S2, ⟨⟨[], createdR⟩ :: us⟩) := by
                simp [connectBlockCore, h1, h2, hB, hadd, hcs, hfee]
              rw [h] at hok
              injection hok with hok
              rw [hok]
              unfold disconnectBlock
              simp only
              rw [List.reverse_cons, List.foldl_append,
                connectTxs_roundtrip _ _ _ _ _ _ _ hcs]
              simp only [List.foldl_cons, List.foldl_nil]
              unfold disconnectTx
              simp only [List.reverse_nil, List.foldl_nil]
              exact addOutputs_roundtrip _ _ _ _ _ _ _ _ hadd

/-- A locking script satisfied by an empty unlocking proof: push a true byte. -/
def exLock : Script := [ScriptOp.push [1]]

/-- Example UTXO state with one spendable coin at reference (1, 0). -/
def exS : UtxoSet := updS (fun _ => none) (1, 0) (some ⟨50, exLock, 0, false⟩)

/-- Example block: a reward transaction and one transaction spending (1, 0). -/
def exB : Block :=
  ⟨[⟨100, [], [⟨50, exLock⟩]⟩, ⟨101, [⟨(1, 0), []⟩], [⟨49, exLock⟩]⟩]⟩

/-- The connected state and undo log of the example block. -/
def exRes : UtxoSet × BlockUndo :=
  (connectBlockCore [] 50 1 exS exB).toOption.getD (exS, ⟨[]⟩)

/-- Witness for the connect/disconnect round trip on the example block. -/
theorem connect_disconnect_roundtrip_witness :
    connectBlockCore [] 50 1 exS exB = .ok exRes ∧
      disconnectBlock exRes.1 exRes.2 = exS :=
  ⟨rfl, connect_disconnect_roundtrip [] 50 1 exS exB exRes rfl⟩

/-- C3: a block whose inputs reference the same OutputReference twice (the
second spend hitting a coin already consumed in the same block) is rejected
with ConsensusViolation, and the UTXO set is returned exactly as it was. -/
theorem double_spend_rejected (flags : List ScriptFlag) (subsidy height : Nat)
    (S : UtxoSet) (B : Block)
    (hstruct : structuralOk B = true)
    (hdup : ¬ (blockInputRefs B).Nodup) :
    connectBlock flags subsidy height S B = (.error .ConsensusViolation, S) := by
  have hcore : connectBlockCore flags subsidy height S B = .error .ConsensusViolation := by
    unfold connectBlockCore
    rw [hstruct]
    simp [hdup]
  unfold connectBlock
  rw [hcore]

/-- A block that spends the reference (1, 0) twice. -/
def exDupB : Block :=
  ⟨[⟨100, [], [⟨50, exLock⟩]⟩, ⟨101, [⟨(1, 0), []⟩, ⟨(1, 0), []⟩], []⟩]⟩

/-- Witness: the double-spending block is rejected and the state is untouched. -/
theorem double_spend_rejected_witness :
    connectBlock [] 50 1 exS exDupB = (.error .ConsensusViolation, exS) :=
  double_spend_rejected [] 50 1 exS exDupB (by decide) (by decide)

theorem connectTx_conserve (flags : List ScriptFlag) (height : Nat)
    (S S2 : UtxoSet) (tx : Transaction) (u : TxUndo) (fee : Nat)
    (h : connectTx flags height S tx = .ok (S2, u, fee)) :
    outSum tx ≤ spentSum u ∧ fee + outSum tx = spentSum u := by
  cases hsp : spendInputs S tx.inputs with
  | error e => simp [connectTx, hsp] at h
  | ok p =>
    obtain ⟨S1, spent⟩ := p
    by_cases hv : verifyTxScripts tx flags (spent.map Prod.snd) = false
    · simp [connectTx, hsp, hv] at h
    · by_cases hval : (spent.map (fun rc => rc.2.value)).sum < outSum tx
      · simp [connectTx, hsp, hv, hval] at h
      · cases hadd : addOutputs tx.txid height false S1 tx.outputs 0 with
        | error e => simp [connectTx, hsp, hv, hval, hadd] at h
        | ok q =>
          obtain ⟨S3, created⟩ := q
          have hok : connectTx flags height S tx =
              .ok (S3, ⟨spent, created⟩,
                (spent.map (fun rc => rc.2.value)).sum - outSum tx) := by
            simp [connectTx, hsp, hv, hval, hadd]
          rw [h] at hok
          injection hok with hok
          simp only [Prod.mk.injEq] at hok
          rw [hok.2.1, spentSum]
          simp only
          omega

theorem connectTxs_conserve (flags : List ScriptFlag) (height : Nat)
    (txs : List Transaction) :
    ∀ (S S2 : UtxoSet) (us : List TxUndo) (fees : Nat),
      connectTxs flags height S txs = .ok (S2, us, fees) →
      List.Forall₂ (fun u tx => outSum tx ≤ spentSum u) us txs ∧
      fees + (txs.map outSum).sum = (us.map spentSum).sum := by
  induction txs with
  | nil =>
    intro S S2 us fees h
    simp only [connectTxs, Except.ok.injEq, Prod.mk.injEq] at h
    rw [← h.2.1, ← h.2.2]
    simp
  | cons tx rest ih =>
    intro S S2 us fees h
    cases hc : connectTx flags height S tx with
    | error e => simp [connectTxs, hc] at h
    | ok p =>
      obtain ⟨S1, u, fee⟩ := p
      cases hcs : connectTxs flags height S1 rest with
      | error e => simp [connectTxs, hc, hcs] at h
      | ok q =>
        obtain ⟨S3, us3, fees3⟩ := q
        simp only [connectTxs, hc, hcs, Except.ok.injEq, Prod.mk.injEq] at h
        obtain ⟨hcons1, hcons2⟩ := connectTx_conserve _ _ _ _ _ _ _ hc
        obtain ⟨hih1, hih2⟩ := ih _ _ _ _ hcs
        rw [← h.2.1, ← h.2.2]
        constructor
        · exact List.Forall₂.cons hcons1 hih1
        · simp only [List.map_cons, List.sum_cons]
          omega

/-- C5: in a connected block every non-reward transaction removes at least as
much coin value as it declares in outputs (the difference being its fee), and
the reward transaction is bounded by the subsidy plus the collected fees:
reward outputs plus all non-reward outputs never exceed the subsidy plus the
total value the block's transactions removed. -/
theorem value_conservation (flags : List ScriptFlag) (subsidy height : Nat)
    (S : UtxoSet) (B : Block) (res : UtxoSet × BlockUndo)
    (h : connectBlockCore flags subsidy height S B = .ok res) :
    List.Forall₂ (fun u tx => outSum tx ≤ spentSum u) res.2.txs.tail B.txs.tail ∧
    outSum (B.txs.headD ⟨0, [], []⟩) + (B.txs.tail.map outSum).sum ≤
      subsidy + (res.2.txs.tail.map spentSum).sum := by
  by_cases h1 : structuralOk B = false
  · simp [connectBlockCore, h1] at h
  · by_cases h2 : ¬ (blockInputRefs B).Nodup
    · simp [connectBlockCore, h1, h2] at h
    · cases hB : B.txs with
      | nil => simp [connectBlockCore, h1, h2, hB] at h
      | cons reward rest =>
        cases hadd : addOutputs reward.txid height true S reward.outputs 0 with
        | error e => simp [connectBlockCore, h1, h2, hB, hadd] at h
        | ok p =>
          obtain ⟨S1, createdR⟩ := p
          cases hcs : connectTxs flags height S1 rest with
          | error e => simp [connectBlockCore, h1, h2, hB, hadd, hcs] at h
          | ok q =>
            obtain ⟨S2, us, fees⟩ := q
            by_cases hfee : outSum reward > subsidy + fees
            · simp [connectBlockCore, h1, h2, hB, hadd, hcs, hfee] at h
            · have hok : connectBlockCore flags subsidy height S B =
                  .ok (S2, ⟨⟨[], createdR⟩ :: us⟩) := by
                simp [connectBlockCore, h1, h2, hB, hadd, hcs, hfee]
              rw [h] at hok
              injection hok with hok
              rw [hok]
              simp only [List.tail_cons, List.headD_cons]
              obtain ⟨hf2, hsum⟩ := connectTxs_conserve _ _ _ _ _ _ _ hcs
              exact ⟨hf2, by omega⟩

/-- Witness for value conservation on the example block. -/
theorem value_conservation_witness :
    List.Forall₂ (fun u tx => outSum tx ≤ spentSum u) exRes.2.txs.tail exB.txs.tail ∧
    outSum (exB.txs.headD ⟨0, [], []⟩) + (exB.txs.tail.map outSum).sum ≤
      50 + (exRes.2.txs.tail.map spentSum).sum :=
  value_conservation [] 50 1 exS exB exRes rfl

theorem perm_all_eq {α : Type} (p : α → Bool) {l1 l2 : List α} (h : l1.Perm l2) :
    l1.all p = l2.all p := by
  induction h with
  | nil => rfl
  | cons x _ ih => simp [List.all_cons, ih]
  | swap x y l =>
    simp only [List.all_cons]
    cases p x <;> cases p y <;> simp
  | trans _ _ ih1 ih2 => rw [ih1, ih2]

/-- C7: script verification is a pure, deterministic function of its six
arguments: invocations against different ambient shared states return the same
outcome (the same error reason on failure), no invocation changes the shared
state, and aggregating a block's verification jobs in any order (any
permutation of the worker pool's schedule) yields the same accept decision. -/
theorem script_verify_pure_deterministic {σ : Type} (s1 s2 : σ)
    (lockingCondition unlockingProof : Script) (tx : Transaction)
    (inputIndex : Nat) (flags : List ScriptFlag) (spentValue : Nat)
    (jobs jobs2 : List VerifyJob) (hperm : jobs.Perm jobs2) :
    (verifyInvoke lockingCondition unlockingProof tx inputIndex flags spentValue s1).1 =
      (verifyInvoke lockingCondition unlockingProof tx inputIndex flags spentValue s2).1 ∧
    (verifyInvoke lockingCondition unlockingProof tx inputIndex flags spentValue s1).2 = s1 ∧
    aggregateVerify jobs = aggregateVerify jobs2 :=
  ⟨rfl, rfl, perm_all_eq _ hperm⟩

/-- A second verification job, distinct from the satisfied one. -/
def exJobA : VerifyJob := ⟨exLock, [], ⟨101, [], []⟩, 0, [], 50⟩

/-- A failing verification job (empty locking condition leaves an empty stack). -/
def exJobB : VerifyJob := ⟨[], [], ⟨102, [], []⟩, 1, [], 7⟩

/-- Witness: purity and order independence at concrete states and a concrete
two-job pool in swapped order. -/
theorem script_verify_pure_deterministic_witness :
    (verifyInvoke exLock [] ⟨101, [], []⟩ 0 [] 50 (0 : Nat)).1 =
      (verifyInvoke exLock [] ⟨101, [], []⟩ 0 [] 50 (1 : Nat)).1 ∧
    (verifyInvoke exLock [] ⟨101, [], []⟩ 0 [] 50 (0 : Nat)).2 = 0 ∧
    aggregateVerify [exJobA, exJobB] = aggregateVerify [exJobB, exJobA] :=
  script_verify_pure_deterministic 0 1 exLock [] ⟨101, [], []⟩ 0 [] 50
    [exJobA, exJobB] [exJobB, exJobA] (List.Perm.swap exJobB exJobA [])

/- ————————————————————————————————————————————————————————————————————————
   Section 7: CoinsViewCache flush (modelled from the spec, §4.2/§6)
   ———————————————————————————————————————————————————————————————————————— -/

/-- Modelled from the spec (§4.2): one in-memory cache entry — the coin (or a
spent marker, `none`) with its dirty and fresh flags. -/
structure CacheEntry where
  coin : Option Coin
  dirty : Bool
  fresh : Bool
deriving DecidableEq

/-- Modelled from the spec (§4.2): the in-memory layer of the coins view —
entries keyed by output reference, plus the best-block metadata the set is
consistent as-of. -/
structure CoinsViewCache where
  entries : List (OutputRef × CacheEntry)
  cacheBestBlock : Option Nat
deriving DecidableEq

/-- Modelled from the spec (§6): the persistent store under the cache — the
coin table plus the reserved best-block key. -/
structure StoreState where
  coins : OutputRef → Option Coin
  bestBlock : Option Nat

/-- Modelled from the spec (§6): the operations of one atomic batch. -/
inductive BatchOp where
  | writeCoin (ref : OutputRef) (c : Coin)
  | eraseCoin (ref : OutputRef)
  | writeBestBlock (h : Nat)
deriving DecidableEq

/-- Apply one batch operation to the store. -/
def applyBatchOp (st : StoreState) : BatchOp → StoreState
  | .writeCoin ref c => { st with coins := updS st.coins ref (some c) }
  | .eraseCoin ref => { st with coins := updS st.coins ref none }
  | .writeBestBlock h => { st with bestBlock := some h }

/-- Modelled from the spec (§6): `batchWrite(ops) -> Result<(), IoError>` —
atomic: on failure (modelled by the `ioFail` input) nothing at all is applied;
on success every operation applies, as one batch. -/
def batchWrite (ioFail : Bool) (st : StoreState) (ops : List BatchOp) :
    Except RejectReason StoreState :=
  if ioFail then .error .IoError else .ok (ops.foldl applyBatchOp st)

/-- The coin operations a flush derives from the dirty entries, in entry
order: a write for a dirty live coin, an erase for a dirty spent marker. -/
def coinOps (entries : List (OutputRef × CacheEntry)) : List BatchOp :=
  entries.filterMap fun pe =>
    if pe.2.dirty then
      some (match pe.2.coin with
        | some c => BatchOp.writeCoin pe.1 c
        | none => BatchOp.eraseCoin pe.1)
    else none

/-- The single batch a flush submits: the dirty-entry operations plus the
best-block update in the same batch (§4.2: never separately). -/
def flushOps (cache : CoinsViewCache) : List BatchOp :=
  coinOps cache.entries ++
    (match cache.cacheBestBlock with
     | some h => [BatchOp.writeBestBlock h]
     | none => [])

/-- Modelled from the spec (§4.2): `flush()` — merge all dirty entries and the
best-block metadata into the parent with one `batchWrite`; all-or-nothing: on
IoError the in-memory layer and the store are left unchanged so the flush can
be retried, on success the layer is cleared. -/
def CoinsViewCache.flush (ioFail : Bool) (cache : CoinsViewCache) (st : StoreState) :
    Except RejectReason Unit × CoinsViewCache × StoreState :=
  match batchWrite ioFail st (flushOps cache) with
  | .error e => (.error e, cache, st)
  | .ok st2 => (.ok (), { entries := [], cacheBestBlock := cache.cacheBestBlock }, st2)

/-- Lookup of an in-memory entry by reference. -/
def cacheFind (cache : CoinsViewCache) (ref : OutputRef) : Option CacheEntry :=
  (cache.entries.find? (fun pe => pe.1 = ref)).map Prod.snd

theorem find?_entries_none (rest : List (OutputRef × CacheEntry)) (ref : OutputRef)
    (h : ref ∉ rest.map Prod.fst) : rest.find? (fun pe => pe.1 = ref) = none := by
  rw [List.find?_eq_none]
  intro pe hpe
  simp only [decide_eq_true_eq]
  intro hc
  exact h (by rw [← hc]; exact List.mem_map_of_mem _ hpe)

theorem coinOps_bestBlock (entries : List (OutputRef × CacheEntry)) :
    ∀ st : StoreState, ((coinOps entries).foldl applyBatchOp st).bestBlock = st.bestBlock := by
  induction entries with
  | nil => intro st; rfl
  | cons pe rest ih =>
    intro st
    obtain ⟨r, e⟩ := pe
    by_cases hd : e.dirty = true
    · cases hc : e.coin with
      | none =>
        have hcons : coinOps ((r, e) :: rest) = BatchOp.eraseCoin r :: coinOps rest := by
          simp [coinOps, List.filterMap_cons, hd, hc]
        rw [hcons, List.foldl_cons, ih]
        rfl
      | some c =>
        have hcons : coinOps ((r, e) :: rest) = BatchOp.writeCoin r c :: coinOps rest := by
          simp [coinOps, List.filterMap_cons, hd, hc]
        rw [hcons, List.foldl_cons, ih]
        rfl
    · have hd2 : e.dirty = false := by
        revert hd
        cases e.dirty <;> simp
      have hcons : coinOps ((r, e) :: rest) = coinOps rest := by
        simp [coinOps, List.filterMap_cons, hd2]
      rw [hcons, ih]

theorem coinOps_coins (entries : List (OutputRef × CacheEntry)) :
    ∀ (st : StoreState) (ref : OutputRef),
      (entries.map Prod.fst).Nodup →
      ((coinOps entries).foldl applyBatchOp st).coins ref =
        (match (entries.find? (fun pe => pe.1 = ref)).map Prod.snd with
         | some e => if e.dirty then e.coin else st.coins ref
         | none => st.coins ref) := by
  induction entries with
  | nil => intro st ref hnd; rfl
  | cons pe rest ih =>
    intro st ref hnd
    obtain ⟨r, e⟩ := pe
    simp only [List.map_cons, List.nodup_cons] at hnd
    obtain ⟨hr_not, hnd_rest⟩ := hnd
    by_cases href : ref = r
    · subst href
      have hfind : rest.find? (fun pe => pe.1 = ref) = none := find?_entries_none rest ref hr_not
      by_cases hd : e.dirty = true
      · cases hc : e.coin with
        | none =>
          have hcons : coinOps ((ref, e) :: rest) = BatchOp.eraseCoin ref :: coinOps rest := by
            simp [coinOps, List.filterMap_cons, hd, hc]
          rw [hcons, List.foldl_cons, ih _ ref hnd_rest, hfind]
          simp [List.find?_cons, applyBatchOp, updS, hd, hc]
        | some c =>
          have hcons : coinOps ((ref, e) :: rest) = BatchOp.writeCoin ref c :: coinOps rest := by
            simp [coinOps, List.filterMap_cons, hd, hc]
          rw [hcons, List.foldl_cons, ih _ ref hnd_rest, hfind]
          simp [List.find?_cons, applyBatchOp, updS, hd, hc]
      · have hd2 : e.dirty = false := by
          revert hd
          cases e.dirty <;> simp
        have hcons : coinOps ((ref, e) :: rest) = coinOps rest := by
          simp [coinOps, List.filterMap_cons, hd2]
        rw [hcons, ih _ ref hnd_rest, hfind]
        simp [List.find?_cons, hd2]
    · have href2 : ¬ (r = ref) := fun hh => href hh.symm
      by_cases hd : e.dirty = true
      · cases hc : e.coin with
        | none =>
          have hcons : coinOps ((r, e) :: rest) = BatchOp.eraseCoin r :: coinOps rest := by
            simp [coinOps, List.filterMap_cons, hd, hc]
          rw [hcons, List.foldl_cons, ih _ ref hnd_rest]
          have hpres : (applyBatchOp st (BatchOp.eraseCoin r)).coins ref = st.coins ref := by
            simp [applyBatchOp, updS, href]
          rw [hpres]
          simp [List.find?_cons, href2]
        | some c =>
          have hcons : coinOps ((r, e) :: rest) = BatchOp.writeCoin r c :: coinOps rest := by
            simp [coinOps, List.filterMap_cons, hd, hc]
          rw [hcons, List.foldl_cons, ih _ ref hnd_rest]
          have hpres : (applyBatchOp st (BatchOp.writeCoin r c)).coins ref = st.coins ref := by
            simp [applyBatchOp, updS, href]
          rw [hpres]
          simp [List.find?_cons, href2]
      · have hd2 : e.dirty = false := by
          revert hd
          cases e.dirty <;> simp
        have hcons : coinOps ((r, e) :: rest) = coinOps rest := by
          simp [coinOps, List.filterMap_cons, hd2]
        rw [hcons, ih _ ref hnd_rest]
        simp [List.find?_cons, href2]

/-- C6: flush is all-or-nothing: an IoError leaves the in-memory layer (and
the store) exactly as they were so the flush can be retried; success clears
the layer, merges every dirty entry into the parent store in the one batch,
and updates the best-block metadata in that same batch. -/
theorem flush_atomic (cache : CoinsViewCache) (st : StoreState)
    (hnd : (cache.entries.map Prod.fst).Nodup) :
    CoinsViewCache.flush true cache st = (.error .IoError, cache, st) ∧
    (CoinsViewCache.flush false cache st).2.1.entries = [] ∧
    (∀ ref, ((CoinsViewCache.flush false cache st).2.2).coins ref =
      (match cacheFind cache ref with
       | some e => if e.dirty then e.coin else st.coins ref
       | none => st.coins ref)) ∧
    ((CoinsViewCache.flush false cache st).2.2).bestBlock =
      (match cache.cacheBestBlock with
       | some h => some h
       | none => st.bestBlock) := by
  refine ⟨rfl, rfl, ?_, ?_⟩
  · intro ref
    show ((flushOps cache).foldl applyBatchOp st).coins ref = _
    rw [flushOps, List.foldl_append]
    cases hb : cache.cacheBestBlock with
    | none =>
      simp only [List.foldl_nil]
      exact coinOps_coins cache.entries st ref hnd
    | some hsh =>
      show (applyBatchOp ((coinOps cache.entries).foldl applyBatchOp st)
          (BatchOp.writeBestBlock hsh)).coins ref = _
      show ((coinOps cache.entries).foldl applyBatchOp st).coins ref = _
      exact coinOps_coins cache.entries st ref hnd
  · show ((flushOps cache).foldl applyBatchOp st).bestBlock = _
    rw [flushOps, List.foldl_append]
    cases hb : cache.cacheBestBlock with
    | none =>
      simp only [List.foldl_nil]
      exact coinOps_bestBlock cache.entries st
    | some hsh => rfl

/-- An example coin for the cache example. -/
def exCoin : Coin := ⟨42, exLock, 3, false⟩

/-- Example cache: a dirty fresh coin, a dirty spent marker and a clean entry,
with a pending best-block update. -/
def exCache : CoinsViewCache :=
  ⟨[((1, 0), ⟨some exCoin, true, true⟩), ((2, 0), ⟨none, true, false⟩),
    ((3, 1), ⟨some ⟨7, [], 1, false⟩, false, false⟩)], some 99⟩

/-- Example persistent store under the cache. -/
def exStore : StoreState := ⟨fun _ => none, some 98⟩

/-- Witness: a failing flush returns the layer and store untouched; a
successful flush clears the layer. -/
theorem flush_atomic_witness :
    CoinsViewCache.flush true exCache exStore = (.error .IoError, exCache, exStore) ∧
    (CoinsViewCache.flush false exCache exStore).2.1.entries = [] :=
  ⟨(flush_atomic exCache exStore (by decide)).1,
    (flush_atomic exCache exStore (by decide)).2.1⟩

/- ————————————————————————————————————————————————————————————————————————
   Section 8: block index and chainstate manager (modelled from the spec,
   §4.3/§4.5)
   ———————————————————————————————————————————————————————————————————————— -/

/-- Modelled from the spec (§3): the validity states of a block-index node. -/
inductive BlockStatus where
  | Unknown
  | HeaderValid
  | TreeValid
  | ScriptsValid
  | Invalid
  | InvalidAncestor
deriving DecidableEq

/-- Modelled from the spec (§3): a block-index node — stable identifier (the
block's own hash), parent reference, cumulative work, validity status. -/
structure BlockIndexNode where
  id : Nat
  parent : Option Nat
  work : Nat
  status : BlockStatus
deriving DecidableEq

/-- Modelled from the spec (§4.3): the block index, kept in first-seen
(insertion) order. -/
abbrev BlockIndex := List BlockIndexNode

/-- A node eligible for best-candidate selection: at least TreeValid and not
Invalid or InvalidAncestor (§4.3). -/
def eligible (n : BlockIndexNode) : Bool :=
  n.status = BlockStatus.TreeValid || n.status = BlockStatus.ScriptsValid

/-- One step of the best-candidate fold: an eligible node replaces the running
best only when its cumulative work is strictly greater — ties keep the
first-seen node. -/
def selStep (best : Option BlockIndexNode) (n : BlockIndexNode) : Option BlockIndexNode :=
  if eligible n then
    match best with
    | none => some n
    | some b => if n.work > b.work then some n else some b
  else best

/-- Modelled from the spec (§4.3): `findBestCandidate` — among nodes at least
TreeValid and not Invalid/InvalidAncestor, the greatest cumulative work, ties
broken by first-seen order. -/
def findBestCandidate (idx : BlockIndex) : Option BlockIndexNode :=
  idx.foldl selStep none

/-- Node lookup by stable identifier. -/
def lookupNode (idx : BlockIndex) (nid : Nat) : Option BlockIndexNode :=
  idx.find? (fun n => n.id = nid)

/-- The ancestor-identifier chain of a node, walked through parent references
and bounded by fuel. -/
def ancestorIds (idx : BlockIndex) : Nat → Nat → List Nat
  | 0, _ => []
  | fuel + 1, nid =>
    match lookupNode idx nid with
    | none => []
    | some n =>
      match n.parent with
      | none => []
      | some p => p :: ancestorIds idx fuel p

/-- `d` is a proper descendant of `a` in the index: `a` occurs on `d`'s
ancestor chain. -/
def isDescendantOf (idx : BlockIndex) (d a : Nat) : Bool :=
  (ancestorIds idx idx.length d).contains a

/-- Modelled from the spec (§4.3): marking a node Invalid transitively marks
every descendant InvalidAncestor; identifiers, parents and work are untouched. -/
def markInvalid (idx : BlockIndex) (nid : Nat) : BlockIndex :=
  idx.map fun n =>
    if n.id = nid then { n with status := BlockStatus.Invalid }
    else if isDescendantOf idx n.id nid then { n with status := BlockStatus.InvalidAncestor }
    else n

/-- Modelled from the spec (§4.5): the chainstate manager's shared state — the
index and the active tip by stable identifier. -/
structure ChainstateManager where
  index : BlockIndex
  activeTip : Nat

/-- Cumulative work at the manager's active tip. -/
def tipWork (m : ChainstateManager) : Nat :=
  match lookupNode m.index m.activeTip with
  | some n => n.work
  | none => 0

/-- Modelled from the spec (§4.5): one `activateBestChain` step — recompute the
best candidate; stop if it is already the active tip, otherwise switch to it. -/
def activateBestChain (m : ChainstateManager) : ChainstateManager :=
  match findBestCandidate m.index with
  | none => m
  | some best => if best.id = m.activeTip then m else { m with activeTip := best.id }

/-- The structural well-formedness the manager maintains: node identifiers are
distinct, and the active tip is a present, eligible node (a connected tip was
fully validated). -/
def MgrInv (m : ChainstateManager) : Prop :=
  ((m.index.map BlockIndexNode.id).Nodup) ∧
  (∃ n, lookupNode m.index m.activeTip = some n ∧ eligible n = true)

/-- Modelled from the spec (§4.3, §4.5): the events that mutate the shared
chain state — registering a fresh header, marking a block that failed
validation invalid (such a block was never connected, so it is neither the
active tip nor one of its ancestors), and an `activateBestChain` step. -/
inductive MgrStep : ChainstateManager → ChainstateManager → Prop
  | addHeader (m : ChainstateManager) (n : BlockIndexNode)
      (hfresh : lookupNode m.index n.id = none) :
      MgrStep m ⟨m.index ++ [n], m.activeTip⟩
  | invalidate (m : ChainstateManager) (nid : Nat)
      (hnotTip : nid ≠ m.activeTip)
      (hnotAnc : isDescendantOf m.index m.activeTip nid = false) :
      MgrStep m ⟨markInvalid m.index nid, m.activeTip⟩
  | activate (m : ChainstateManager) :
      MgrStep m (activateBestChain m)

theorem selStep_isSome (acc : Option BlockIndexNode) (n : BlockIndexNode)
    (h : acc.isSome = true) : (selStep acc n).isSome = true := by
  cases acc with
  | none => simp at h
  | some b =>
    simp only [selStep]
    split
    · split <;> rfl
    · rfl

theorem foldl_selStep_pres (idx : BlockIndex) :
    ∀ acc : Option BlockIndexNode, acc.isSome = true →
      (idx.foldl selStep acc).isSome = true := by
  induction idx with
  | nil => intro acc h; exact h
  | cons n rest ih =>
    intro acc h
    exact ih _ (selStep_isSome acc n h)

theorem selStep_some_cases (acc : Option BlockIndexNode) (n b : BlockIndexNode)
    (hb : selStep acc n = some b) :
    (eligible n = true ∧ b = n) ∨ acc = some b := by
  cases acc with
  | none =>
    simp only [selStep] at hb
    by_cases he : eligible n = true
    · rw [if_pos he] at hb
      injection hb with hb
      exact Or.inl ⟨he, hb.symm⟩
    · rw [if_neg he] at hb
      exact absurd hb (by simp)
  | some a0 =>
    simp only [selStep] at hb
    by_cases he : eligible n = true
    · rw [if_pos he] at hb
      by_cases hw : n.work > a0.work
      · rw [if_pos hw] at hb
        injection hb with hb
        exact Or.inl ⟨he, hb.symm⟩
      · rw [if_neg hw] at hb
        exact Or.inr hb
    · rw [if_neg he] at hb
      exact Or.inr hb

theorem selStep_work_bounds (acc : Option BlockIndexNode) (n b : BlockIndexNode)
    (hb : selStep acc n = some b) :
    (∀ a, acc = some a → a.work ≤ b.work) ∧ (eligible n = true → n.work ≤ b.work) := by
  cases acc with
  | none =>
    simp only [selStep] at hb
    by_cases he : eligible n = true
    · rw [if_pos he] at hb
      injection hb with hb
      subst hb
      exact ⟨fun a ha => absurd ha (by simp), fun _ => le_refl _⟩
    · rw [if_neg he] at hb
      exact absurd hb (by simp)
  | some a0 =>
    simp only [selStep] at hb
    by_cases he : eligible n = true
    · rw [if_pos he] at hb
      by_cases hw : n.work > a0.work
      · rw [if_pos hw] at hb
        injection hb with hb
        subst hb
        refine ⟨?_, fun _ => le_refl _⟩
        intro a ha
        injection ha with ha
        subst ha
        omega
      · rw [if_neg hw] at hb
        injection hb with hb
        subst hb
        refine ⟨?_, fun _ => by omega⟩
        intro a ha
        injection ha with ha
        subst ha
        exact le_refl _
    · rw [if_neg he] at hb
      injection hb with hb
      subst hb
      exact ⟨fun a ha => by rw [← (Option.some.inj ha)], fun hcon => absurd hcon he⟩

theorem selStep_isSome_of_eligible (acc : Option BlockIndexNode) (n : BlockIndexNode)
    (he : eligible n = true) : (selStep acc n).isSome = true := by
  cases acc with
  | none => simp [selStep, he]
  | some b =>
    simp only [selStep, he, if_true]
    split <;> rfl

theorem foldl_selStep_mem (idx : BlockIndex) :
    ∀ acc m, idx.foldl selStep acc = some m →
      acc = some m ∨ (m ∈ idx ∧ eligible m = true) := by
  induction idx with
  | nil => intro acc m h; exact Or.inl h
  | cons n rest ih =>
    intro acc m h
    rcases ih _ _ h with hstep | hmem
    · rcases selStep_some_cases acc n m hstep with ⟨he, rfl⟩ | hacc
      · exact Or.inr ⟨List.mem_cons_self _ _, he⟩
      · exact Or.inl hacc
    · exact Or.inr ⟨List.mem_cons_of_mem _ hmem.1, hmem.2⟩

theorem foldl_selStep_max (idx : BlockIndex) :
    ∀ acc m, idx.foldl selStep acc = some m →
      (∀ b, acc = some b → b.work ≤ m.work) ∧
      (∀ n ∈ idx, eligible n = true → n.work ≤ m.work) := by
  induction idx with
  | nil =>
    intro acc m h
    refine ⟨?_, ?_⟩
    · intro b hb
      rw [hb] at h
      injection h with h
      rw [h]
    · intro n hn
      simp at hn
  | cons n rest ih =>
    intro acc m h
    obtain ⟨ih1, ih2⟩ := ih _ _ h
    refine ⟨?_, ?_⟩
    · intro b hb
      have hs : (selStep acc n).isSome = true := selStep_isSome acc n (by rw [hb]; rfl)
      obtain ⟨b2, hb2⟩ := Option.isSome_iff_exists.mp hs
      have h1 := (selStep_work_bounds acc n b2 hb2).1 b hb
      have h2 := ih1 b2 hb2
      omega
    · intro x hx hex
      rcases List.mem_cons.mp hx with rfl | hx2
      · have hs : (selStep acc x).isSome = true := selStep_isSome_of_eligible acc x hex
        obtain ⟨b2, hb2⟩ := Option.isSome_iff_exists.mp hs
        have h1 := (selStep_work_bounds acc x b2 hb2).2 hex
        have h2 := ih1 b2 hb2
        omega
      · exact ih2 x hx2 hex

theorem findBest_spec (idx : BlockIndex) (m : BlockIndexNode)
    (h : findBestCandidate idx = some m) :
    eligible m = true ∧ m ∈ idx ∧ ∀ n ∈ idx, eligible n = true → n.work ≤ m.work := by
  have h1 := foldl_selStep_mem idx none m h
  have h2 := (foldl_selStep_max idx none m h).2
  rcases h1 with h1 | h1
  · exact absurd h1 (by simp)
  · exact ⟨h1.2, h1.1, h2⟩

theorem findBest_exists (idx : BlockIndex) :
    ∀ acc, (∃ n ∈ idx, eligible n = true) → (idx.foldl selStep acc).isSome = true := by
  induction idx with
  | nil =>
    intro acc h
    obtain ⟨n, hn, _⟩ := h
    simp at hn
  | cons x rest ih =>
    intro acc h
    obtain ⟨n, hn, he⟩ := h
    rcases List.mem_cons.mp hn with rfl | hn2
    · rw [List.foldl_cons]
      exact foldl_selStep_pres rest _ (selStep_isSome_of_eligible acc n he)
    · rw [List.foldl_cons]
      exact ih _ ⟨n, hn2, he⟩

theorem findBest_of_strict (idx : BlockIndex) (n : BlockIndexNode)
    (hn : n ∈ idx) (he : eligible n = true)
    (hstrict : ∀ n2 ∈ idx, eligible n2 = true → n2 ≠ n → n2.work < n.work) :
    findBestCandidate idx = some n := by
  have hs : (findBestCandidate idx).isSome = true := findBest_exists idx none ⟨n, hn, he⟩
  obtain ⟨m, hm⟩ := Option.isSome_iff_exists.mp hs
  obtain ⟨hme, hmm, hmax⟩ := findBest_spec idx m hm
  by_cases heq : m = n
  · rw [hm, heq]
  · have h1 := hstrict m hmm hme heq
    have h2 := hmax n hn he
    omega

theorem lookupNode_id (idx : BlockIndex) (nid : Nat) (n : BlockIndexNode)
    (h : lookupNode idx nid = some n) : n.id = nid := by
  have h2 := List.find?_some h
  simpa using h2

theorem lookupNode_mem (idx : BlockIndex) (nid : Nat) (n : BlockIndexNode)
    (h : lookupNode idx nid = some n) : n ∈ idx :=
  List.mem_of_find?_eq_some h

theorem lookupNode_of_mem (idx : BlockIndex) (hnd : (idx.map BlockIndexNode.id).Nodup)
    (n : BlockIndexNode) (hn : n ∈ idx) : lookupNode idx n.id = some n := by
  induction idx with
  | nil => simp at hn
  | cons a rest ih =>
    simp only [List.map_cons, List.nodup_cons] at hnd
    rcases List.mem_cons.mp hn with rfl | hn2
    · unfold lookupNode
      simp [List.find?_cons]
    · have hne : ¬ (a.id = n.id) := fun hc => hnd.1 (hc ▸ List.mem_map_of_mem _ hn2)
      unfold lookupNode
      rw [List.find?_cons, decide_eq_false hne]
      exact ih hnd.2 hn2

theorem lookupNode_none_iff (idx : BlockIndex) (nid : Nat) :
    lookupNode idx nid = none ↔ nid ∉ idx.map BlockIndexNode.id := by
  unfold lookupNode
  rw [List.find?_eq_none]
  constructor
  · intro h hc
    obtain ⟨x, hx, hxid⟩ := List.mem_map.mp hc
    have h2 := h x hx
    simp only [decide_eq_true_eq] at h2
    exact h2 hxid
  · intro h x hx
    simp only [decide_eq_true_eq]
    intro hc
    exact h (hc ▸ List.mem_map_of_mem _ hx)

theorem find?_map_id_pres (f : BlockIndexNode → BlockIndexNode)
    (hf : ∀ n, (f n).id = n.id) (l : List BlockIndexNode) (tid : Nat) :
    (l.map f).find? (fun n => n.id = tid) = (l.find? (fun n => n.id = tid)).map f := by
  induction l with
  | nil => rfl
  | cons a rest ih =>
    simp only [List.map_cons, List.find?_cons, hf]
    by_cases h : a.id = tid
    · simp [h]
    · simp only [decide_eq_false h]
      exact ih

theorem markInvalid_lookup (idx : BlockIndex) (nid tid : Nat) :
    lookupNode (markInvalid idx nid) tid =
      (lookupNode idx tid).map (fun n =>
        if n.id = nid then { n with status := BlockStatus.Invalid }
        else if isDescendantOf idx n.id nid then { n with status := BlockStatus.InvalidAncestor }
        else n) := by
  unfold lookupNode markInvalid
  apply find?_map_id_pres
  intro n
  split
  · rfl
  · split <;> rfl

theorem markInvalid_map_id (idx : BlockIndex) (nid : Nat) :
    (markInvalid idx nid).map BlockIndexNode.id = idx.map BlockIndexNode.id := by
  unfold markInvalid
  rw [List.map_map]
  apply List.map_congr_left
  intro n _
  simp only [Function.comp]
  split
  · rfl
  · split <;> rfl

/-- C4: after the Block Index marks a node N Invalid, every descendant D of N
carries validity status InvalidAncestor, and the re-evaluated best-candidate
computation never selects N or any descendant of N. -/
theorem mark_invalid_transitive (idx : BlockIndex) (nid : Nat) :
    (∀ did node, did ≠ nid → isDescendantOf idx did nid = true →
        lookupNode (markInvalid idx nid) did = some node →
        node.status = BlockStatus.InvalidAncestor) ∧
    (∀ b, findBestCandidate (markInvalid idx nid) = some b →
        b.id ≠ nid ∧ isDescendantOf idx b.id nid = false) := by
  constructor
  · intro did node hne hdesc hlook
    rw [markInvalid_lookup] at hlook
    cases hl : lookupNode idx did with
    | none =>
      rw [hl] at hlook
      simp at hlook
    | some n0 =>
      rw [hl] at hlook
      have hid : n0.id = did := lookupNode_id idx did n0 hl
      simp only [Option.map_some', Option.some.injEq] at hlook
      rw [hid] at hlook
      rw [if_neg hne, if_pos hdesc] at hlook
      rw [← hlook]
  · intro b hb
    obtain ⟨hbe, hbm, _⟩ := findBest_spec _ b hb
    obtain ⟨n0, hn0, hn0eq⟩ := List.mem_map.mp hbm
    by_cases h1 : n0.id = nid
    · rw [if_pos h1] at hn0eq
      rw [← hn0eq] at hbe
      simp [eligible] at hbe
    · rw [if_neg h1] at hn0eq
      by_cases h2 : isDescendantOf idx n0.id nid = true
      · rw [if_pos (by exact h2)] at hn0eq
        rw [← hn0eq] at hbe
        simp [eligible] at hbe
      · rw [if_neg (by exact h2)] at hn0eq
        rw [← hn0eq]
        refine ⟨h1, ?_⟩
        revert h2
        cases isDescendantOf idx n0.id nid <;> simp

theorem find?_append_some {α : Type} (p : α → Bool) (l1 l2 : List α) (a : α)
    (h : l1.find? p = some a) : (l1 ++ l2).find? p = some a := by
  induction l1 with
  | nil => simp at h
  | cons x rest ih =>
    rw [List.cons_append]
    cases hp : p x with
    | true =>
      simp only [List.find?_cons, hp] at h ⊢
      exact h
    | false =>
      simp only [List.find?_cons, hp] at h ⊢
      exact ih h

theorem activateBestChain_none (m : ChainstateManager)
    (hb : findBestCandidate m.index = none) : activateBestChain m = m := by
  unfold activateBestChain
  rw [hb]

theorem activateBestChain_eq (m : ChainstateManager) (best : BlockIndexNode)
    (hb : findBestCandidate m.index = some best) :
    activateBestChain m =
      if best.id = m.activeTip then m else { m with activeTip := best.id } := by
  unfold activateBestChain
  rw [hb]

theorem mgrStep_preserves_inv (m m2 : ChainstateManager) (h : MgrStep m m2)
    (hinv : MgrInv m) : MgrInv m2 := by
  obtain ⟨hnd, tn, htn, hte⟩ := hinv
  cases h with
  | addHeader n hfresh =>
    have hnotin : n.id ∉ m.index.map BlockIndexNode.id := (lookupNode_none_iff _ _).mp hfresh
    constructor
    · simp only [List.map_append, List.map_cons, List.map_nil]
      rw [List.nodup_append]
      refine ⟨hnd, List.nodup_singleton _, ?_⟩
      intro a ha hb
      simp only [List.mem_singleton] at hb
      exact hnotin (hb ▸ ha)
    · exact ⟨tn, find?_append_some _ _ _ _ htn, hte⟩
  | invalidate nid hnotTip hnotAnc =>
    have hid : tn.id = m.activeTip := lookupNode_id _ _ _ htn
    constructor
    · rw [markInvalid_map_id]
      exact hnd
    · refine ⟨tn, ?_, hte⟩
      show lookupNode (markInvalid m.index nid) m.activeTip = some tn
      rw [markInvalid_lookup, htn]
      simp only [Option.map_some']
      rw [if_neg (by rw [hid]; exact fun hc => hnotTip hc.symm)]
      rw [if_neg (by rw [hid]; simp [hnotAnc])]
  | activate =>
    cases hb : findBestCandidate m.index with
    | none =>
      rw [activateBestChain_none m hb]
      exact ⟨hnd, tn, htn, hte⟩
    | some best =>
      rw [activateBestChain_eq m best hb]
      by_cases he : best.id = m.activeTip
      · rw [if_pos he]
        exact ⟨hnd, tn, htn, hte⟩
      · rw [if_neg he]
        obtain ⟨hbe, hbm, _⟩ := findBest_spec _ _ hb
        exact ⟨hnd, best, lookupNode_of_mem _ hnd best hbm, hbe⟩

theorem activate_work_mono (m : ChainstateManager) (hinv : MgrInv m) :
    tipWork m ≤ tipWork (activateBestChain m) := by
  obtain ⟨hnd, tn, htn, hte⟩ := hinv
  cases hb : findBestCandidate m.index with
  | none =>
    rw [activateBestChain_none m hb]
  | some best =>
    rw [activateBestChain_eq m best hb]
    by_cases he : best.id = m.activeTip
    · rw [if_pos he]
    · rw [if_neg he]
      obtain ⟨hbe, hbm, hmax⟩ := findBest_spec _ _ hb
      have htm : tipWork m = tn.work := by
        unfold tipWork
        rw [htn]
      have hlook2 : lookupNode m.index best.id = some best := lookupNode_of_mem _ hnd _ hbm
      have htw2 : tipWork { m with activeTip := best.id } = best.work := by
        unfold tipWork
        simp only
        rw [hlook2]
      rw [htm, htw2]
      exact hmax tn (lookupNode_mem _ _ _ htn) hte

theorem mgr_inv_reachable (m0 m : ChainstateManager)
    (h : Relation.ReflTransGen MgrStep m0 m) (hinv : MgrInv m0) : MgrInv m := by
  induction h with
  | refl => exact hinv
  | tail _ hstep ih => exact mgrStep_preserves_inv _ _ hstep ih

/-- C2: the best-candidate computation always returns an eligible (at least
TreeValid, not Invalid/InvalidAncestor) node of maximal cumulative work and
selects any strictly dominating eligible candidate; and along every sequence
of manager steps reachable from a well-formed state, an `activateBestChain`
step never switches the active tip to a chain of lower cumulative work. -/
theorem best_candidate_selection_monotone (idx : BlockIndex)
    (m0 m : ChainstateManager) (hinv0 : MgrInv m0)
    (hreach : Relation.ReflTransGen MgrStep m0 m) :
    (∀ b, findBestCandidate idx = some b →
        eligible b = true ∧ b ∈ idx ∧ ∀ n ∈ idx, eligible n = true → n.work ≤ b.work) ∧
    (∀ n ∈ idx, eligible n = true →
        (∀ n2 ∈ idx, eligible n2 = true → n2 ≠ n → n2.work < n.work) →
        findBestCandidate idx = some n) ∧
    tipWork m ≤ tipWork (activateBestChain m) :=
  ⟨fun b hb => findBest_spec idx b hb,
   fun n hn he hs => findBest_of_strict idx n hn he hs,
   activate_work_mono m (mgr_inv_reachable m0 m hreach hinv0)⟩

/-- Example block index: a two-node chain and a separate low-work root. -/
def exIdx : BlockIndex :=
  [⟨1, none, 10, BlockStatus.ScriptsValid⟩, ⟨2, some 1, 25, BlockStatus.TreeValid⟩,
   ⟨3, none, 5, BlockStatus.TreeValid⟩]

/-- Example manager state with the active tip at node 1. -/
def exMgr : ChainstateManager := ⟨exIdx, 1⟩

/-- Witness: selection and monotonicity at the example state (the trivial
reachable sequence). -/
theorem best_candidate_selection_monotone_witness :
    tipWork exMgr ≤ tipWork (activateBestChain exMgr) :=
  (best_candidate_selection_monotone exIdx exMgr exMgr
    ⟨by decide, ⟨1, none, 10, BlockStatus.ScriptsValid⟩, by rfl, by decide⟩
    Relation.ReflTransGen.refl).2.2

/-- The descendant node as it stands after the invalidation. -/
def exNode2 : BlockIndexNode := ⟨2, some 1, 25, BlockStatus.InvalidAncestor⟩

/-- The surviving candidate node of the example index. -/
def exNode3 : BlockIndexNode := ⟨3, none, 5, BlockStatus.TreeValid⟩

/-- Witness: after invalidating node 1 in the example index, its descendant 2
is InvalidAncestor and the recomputed best candidate (node 3) is neither node
1 nor one of its descendants. -/
theorem mark_invalid_transitive_witness :
    exNode2.status = BlockStatus.InvalidAncestor ∧
    (exNode3.id ≠ 1 ∧ isDescendantOf exIdx exNode3.id 1 = false) :=
  ⟨(mark_invalid_transitive exIdx 1).1 2 exNode2 (by decide) (by decide) (by decide),
   (mark_invalid_transitive exIdx 1).2 exNode3 (by decide)⟩
